import Mathlib

/-!
Shallow embedding of `process_excel.py`: the row classifier / tree builder
(`extract_categories_and_medicines`), the tree assembler (`build_category_tree`),
the recursive counter (`update_medicine_count_recursive`) and the per-sheet
driver loop of `main`, together with proofs about them.

Modelling conventions:
* a spreadsheet cell is `Option String`; `none` models a pandas NaN;
* a row is a `List Cell`; a DataFrame is a `List Row`, enumerated from index 0
  exactly as `df.iterrows()` does for `header=None` frames;
* Python dicts (`categories`, `subcategories`) are association lists with
  Python-dict semantics: insertion of an existing key replaces the value in
  place (keeping its position), insertion of a new key appends;
* the classifier's `category_stack` is a Lean list with the TOP AT THE HEAD
  (the Python list keeps the top at the end); `all_category_codes`, which the
  source builds bottom-to-top, is therefore the reversed code projection;
* optional dict keys of a medicine record become `Option` fields.
-/

/-- A spreadsheet cell: `none` is a pandas NaN / missing value. -/
abbrev Cell := Option String

/-- One row of the sheet, as handed to the classifier by `df.iterrows()`. -/
abbrev Row := List Cell

/-- Python's `str.strip()`: drop whitespace from both ends of the text.
Implemented on the character list so that proofs can evaluate it. -/
def pyStrip (s : String) : String :=
  ⟨(((s.data.dropWhile Char.isWhitespace).reverse).dropWhile Char.isWhitespace).reverse⟩

/-- `clean_text` (source lines 5-9): NaN normalizes to `""`, any other value is
converted to text and stripped of surrounding whitespace. -/
def clean_text : Cell → String
  | none => ""
  | some s => pyStrip s

/-- The guarded cell access pattern `clean_text(row.iloc[i]) if i < len(row) else ''`
used for every configured column read in the item-row branch. -/
def cellStr (row : Row) (i : Nat) : String :=
  if h : i < row.length then clean_text (row.get ⟨i, h⟩) else ""

/-- `row.isna().all()` (source line 30): every cell of the row is NaN. -/
def rowAllNa (row : Row) : Bool := row.all (·.isNone)

/-- One entry of the flat `categories` dict built by the classifier
(source lines 48-55).  The `subcategories` key of the Python record is empty
throughout the classifier pass and is rebuilt from scratch by
`build_category_tree`, so it is not stored here. -/
structure FlatCat where
  code : String
  name : String
  level : Nat
  parent_code : Option String
  medicine_count : Nat
deriving Repr, DecidableEq

/-- A medicine record (source lines 68-97).  Keys that the source only adds
conditionally are `Option` fields, `none` meaning the key is absent. -/
structure Medicine where
  id : String
  name : String
  sheet : String
  category_code : Option String := none
  category_name : Option String := none
  all_category_codes : Option (List String) := none
  dosage : Option String := none
  payment_standard : Option (List String) := none
  note : Option String := none
  validity_period : Option String := none
deriving Repr, DecidableEq

/-- Shape of the `note` entry of a column map: the source distinguishes a single
index from a list of indices with `isinstance(col_map['note'], list)`. -/
inductive NoteCols where
  | one (i : Nat)
  | many (cols : List Nat)
deriving Repr, DecidableEq

/-- A per-sheet column map (source lines 18-24); absent keys are `none`. -/
structure ColMap where
  name : Option (List Nat) := none
  dosage : Option Nat := none
  payment_standard : Option (List Nat) := none
  note : Option NoteCols := none
  validity_period : Option Nat := none
deriving Repr, DecidableEq

/-- `sheet_col_map` (source lines 18-25), including the `.get(sheet_name, {})`
default. -/
def sheet_col_map (sheet_name : String) : ColMap :=
  if sheet_name = "西药部分" then
    { name := some [13, 14], dosage := some 15, note := some (.one 17) }
  else if sheet_name = "中成药部分" then
    { name := some [13, 14, 15], note := some (.many [16, 17, 18]) }
  else if sheet_name = "协议西药" then
    { name := some [12, 13], payment_standard := some [14, 15, 16],
      note := some (.one 17), validity_period := some 18 }
  else if sheet_name = "协议中成药" then
    { name := some [12, 13], payment_standard := some [14, 15, 16],
      note := some (.one 17), validity_period := some 18 }
  else if sheet_name = "竞价药品部分" then
    { name := some [12, 13], payment_standard := some [14, 15, 16],
      note := some (.one 17), validity_period := some 18 }
  else {}

/-- A `category_stack` entry: the tuple `(code, cat_name, level)` pushed at
source line 56. -/
abbrev StackEntry := String × String × Nat

/-- Python-dict insertion (`categories[code] = {...}`): assigning an existing
key replaces its value in place (keeping its position), a new key is appended
at the end.  Keys occur at most once in every dict this development builds, so
replacing the first occurrence is exactly the Python behavior. -/
def dictInsert : List (String × FlatCat) → String → FlatCat → List (String × FlatCat)
  | [], k, v => [(k, v)]
  | kv :: rest, k, v =>
      if kv.1 = k then (k, v) :: rest else kv :: dictInsert rest k v

/-- Python-dict lookup `m[k]`, as an `Option`. -/
def dictGet? (m : List (String × FlatCat)) (k : String) : Option FlatCat :=
  (m.find? (fun kv => kv.1 = k)).map (·.2)

/-- In-place mutation of one value of the dict
(`categories[code]['medicine_count'] += 1`). -/
def dictModify (m : List (String × FlatCat)) (k : String) (f : FlatCat → FlatCat) :
    List (String × FlatCat) :=
  m.map (fun kv => if kv.1 = k then (kv.1, f kv.2) else kv)

/-- `k in m` for the dict. -/
def isKey (m : List (String × FlatCat)) (k : String) : Bool :=
  m.any (fun kv => kv.1 = k)

/-- The mutable state of the classifier loop (source lines 13-15). -/
structure ClassifierState where
  categories : List (String × FlatCat)
  medicines : List Medicine
  category_stack : List StackEntry
deriving Repr, DecidableEq

/-- The initial classifier state. -/
def initState : ClassifierState := ⟨[], [], []⟩

/-- The category display name: first non-empty cleaned cell from the second
cell onward (source lines 36-41). -/
def catNameOfRow (row : Row) : String :=
  match row with
  | [] => ""
  | _ :: rest => ((rest.map clean_text).find? (fun s => s ≠ "")).getD ""

/-- The stack-popping loop (source lines 44-45): retire every open category
whose code length is greater than or equal to the new code's length.  The
stack top is at the head. -/
def popGE (code : String) : List StackEntry → List StackEntry
  | [] => []
  | e :: rest => if code.length ≤ e.1.length then popGE code rest else e :: rest

/-- The item name resolution (source lines 59-65): scan the configured name
columns in order and take the first non-empty cleaned value. -/
def itemName (colMap : ColMap) (row : Row) : String :=
  match colMap.name with
  | none => ""
  | some cols => ((cols.map (cellStr row)).find? (fun s => s ≠ "")).getD ""

/-- The optional-field population of a medicine record (source lines 82-97). -/
def addOptFields (colMap : ColMap) (row : Row) (m : Medicine) : Medicine :=
  let m := match colMap.dosage with
    | none => m
    | some i => { m with dosage := some (cellStr row i) }
  let m := match colMap.payment_standard with
    | none => m
    | some cols =>
        { m with payment_standard := some ((cols.map (cellStr row)).filter (fun s => s ≠ "")) }
  let m := match colMap.note with
    | none => m
    | some (.many cols) =>
        { m with note := some (String.intercalate "；" ((cols.map (cellStr row)).filter (fun s => s ≠ ""))) }
    | some (.one i) => { m with note := some (cellStr row i) }
  match colMap.validity_period with
  | none => m
  | some i => { m with validity_period := some (cellStr row i) }

/-- Processing of one row of the sheet (source lines 28-98): skip the first two
rows and fully-NaN rows; a non-empty first cell opens a category; otherwise the
row is an item candidate. -/
def processRow (colMap : ColMap) (sheet_name : String) (idx : Nat)
    (st : ClassifierState) (row : Row) : ClassifierState :=
  if idx < 2 then st
  else if rowAllNa row then st
  else
    let first_col := clean_text (row.headD none)
    if first_col ≠ "" then
      -- category-header row (source lines 34-57)
      let cat_name := catNameOfRow row
      let code := first_col
      let stack1 := popGE code st.category_stack
      let parent_code := stack1.head?.map (·.1)
      let level := stack1.length + 1
      let cat : FlatCat := ⟨code, cat_name, level, parent_code, 0⟩
      { st with
          categories := dictInsert st.categories code cat,
          category_stack := (code, cat_name, level) :: stack1 }
    else
      -- item row (source lines 58-98)
      let name := itemName colMap row
      if name = "" then st
      else
        let base : Medicine :=
          { id := sheet_name ++ "_" ++ toString idx, name := name, sheet := sheet_name }
        let withCat : Medicine × List (String × FlatCat) :=
          match st.category_stack with
          | [] => (base, st.categories)
          | top :: _ =>
            let all_codes := (st.category_stack.map (·.1)).reverse
            let c := top.1
            ({ base with
                 category_code := some c,
                 category_name := some (((dictGet? st.categories c).map (·.name)).getD ""),
                 all_category_codes := some all_codes },
             dictModify st.categories c
               (fun f => { f with medicine_count := f.medicine_count + 1 }))
        let med := addOptFields colMap row withCat.1
        { st with
            categories := withCat.2,
            medicines := st.medicines ++ [med] }

/-- The classifier loop over all rows, threading the row index from `idx`. -/
def processRows (colMap : ColMap) (sheet_name : String) :
    Nat → ClassifierState → List Row → ClassifierState
  | _, st, [] => st
  | idx, st, r :: rs =>
      processRows colMap sheet_name (idx + 1) (processRow colMap sheet_name idx st r) rs

/-- The full classifier pass of `extract_categories_and_medicines`
(source lines 11-98), before tree assembly. -/
def extractFlat (df : List Row) (sheet_name : String) : ClassifierState :=
  processRows (sheet_col_map sheet_name) sheet_name 0 initState df

/-- A node of the assembled category tree: the category record with its
`subcategories` dict (code-keyed, in attachment order). -/
inductive CatNode where
  | mk (code name : String) (level : Nat) (parent_code : Option String)
       (medicine_count : Nat) (subcategories : List (String × CatNode)) : CatNode
deriving Repr

def CatNode.code : CatNode → String
  | .mk c _ _ _ _ _ => c

def CatNode.name : CatNode → String
  | .mk _ n _ _ _ _ => n

def CatNode.level : CatNode → Nat
  | .mk _ _ l _ _ _ => l

def CatNode.parent_code : CatNode → Option String
  | .mk _ _ _ p _ _ => p

def CatNode.medicine_count : CatNode → Nat
  | .mk _ _ _ _ m _ => m

def CatNode.subcategories : CatNode → List (String × CatNode)
  | .mk _ _ _ _ _ s => s

mutual

/-- Decidable equality of tree nodes (the `deriving` handler does not support
this nested inductive). -/
def catNodeDecEq : (a b : CatNode) → Decidable (a = b)
  | .mk c1 n1 l1 p1 m1 s1, .mk c2 n2 l2 p2 m2 s2 =>
    if h1 : c1 = c2 then
      if h2 : n1 = n2 then
        if h3 : l1 = l2 then
          if h4 : p1 = p2 then
            if h5 : m1 = m2 then
              match catSubsDecEq s1 s2 with
              | isTrue h6 => isTrue (by rw [h1, h2, h3, h4, h5, h6])
              | isFalse h6 => isFalse (by intro he; injection he; contradiction)
            else isFalse (by intro he; injection he; contradiction)
          else isFalse (by intro he; injection he; contradiction)
        else isFalse (by intro he; injection he; contradiction)
      else isFalse (by intro he; injection he; contradiction)
    else isFalse (by intro he; injection he; contradiction)

/-- Decidable equality of `subcategories` dicts. -/
def catSubsDecEq : (a b : List (String × CatNode)) → Decidable (a = b)
  | [], [] => isTrue rfl
  | [], _ :: _ => isFalse (by intro he; cases he)
  | _ :: _, [] => isFalse (by intro he; cases he)
  | (k1, t1) :: r1, (k2, t2) :: r2 =>
    if hk : k1 = k2 then
      match catNodeDecEq t1 t2 with
      | isTrue h1 =>
        match catSubsDecEq r1 r2 with
        | isTrue h2 => isTrue (by rw [hk, h1, h2])
        | isFalse h2 => isFalse (by intro he; injection he; contradiction)
      | isFalse h1 =>
        isFalse (by
          intro he; injection he with he1 he2
          exact h1 (congrArg Prod.snd he1))
    else
      isFalse (by
        intro he; injection he with he1 he2
        exact hk (congrArg Prod.fst he1))

end

instance : DecidableEq CatNode := catNodeDecEq

/-- Python truthiness of the `parent_code` value (`if parent_code and ...`):
`None` and the empty string are falsy. -/
def parentTruthy : Option String → Bool
  | none => false
  | some s => s ≠ ""

/-- The attachment test of source line 118: `parent_code and parent_code in nodes`. -/
def attachable (m : List (String × FlatCat)) (pc : Option String) : Bool :=
  parentTruthy pc && isKey m (pc.getD "")

/-- Recursive rendering of the mounting loop of `build_category_tree`
(source lines 114-121).  In the source every copied node's `subcategories`
dict ends up holding exactly the nodes whose `parent_code` equals this node's
key, in dict-iteration order; `buildNode` computes that directly.  The fuel
argument bounds the nesting depth; `build_category_tree` passes the number of
categories, which covers every chain of parent links without key repetition. -/
def buildNode (m : List (String × FlatCat)) : Nat → String → FlatCat → CatNode
  | 0, _, c => .mk c.code c.name c.level c.parent_code c.medicine_count []
  | fuel + 1, k, c =>
    .mk c.code c.name c.level c.parent_code c.medicine_count
      ((m.filter (fun kv => kv.2.parent_code = some k ∧ k ≠ "")).map
        (fun kv => (kv.1, buildNode m fuel kv.1 kv.2)))

/-- `build_category_tree` (source lines 108-122): the returned dict holds
exactly the non-attachable categories, in order, each with its descendants
nested under `subcategories`. -/
def build_category_tree (m : List (String × FlatCat)) : List (String × CatNode) :=
  (m.filter (fun kv => !attachable m kv.2.parent_code)).map
    (fun kv => (kv.1, buildNode m m.length kv.1 kv.2))

mutual

/-- `update_medicine_count_recursive` (source lines 124-134): returns the
mutated node together with the Python return value.  An empty `subcategories`
dict is falsy, so a leaf is returned unchanged. -/
def update_medicine_count_recursive : CatNode → CatNode × Nat
  | .mk code nm lv pc mc subs =>
    match subs with
    | [] => (.mk code nm lv pc mc [], mc)
    | s :: ss =>
      let r := updateSubs (s :: ss)
      (.mk code nm lv pc (mc + r.2) r.1, mc + r.2)

/-- The `for sub in node['subcategories'].values()` loop: updates every child
in order and sums the returned counts. -/
def updateSubs : List (String × CatNode) → List (String × CatNode) × Nat
  | [] => ([], 0)
  | (k, c) :: rest =>
    let rc := update_medicine_count_recursive c
    let rr := updateSubs rest
    ((k, rc.1) :: rr.1, rc.2 + rr.2)

end

/-- The per-sheet output `{'categories': ..., 'medicines': ...}`. -/
structure SheetResult where
  categories : List (String × CatNode)
  medicines : List Medicine
deriving DecidableEq

/-- `extract_categories_and_medicines` (source lines 11-106): classifier pass,
tree assembly, then the in-place recursive count update of every root. -/
def extract_categories_and_medicines (df : List Row) (sheet_name : String) : SheetResult :=
  let st := extractFlat df sheet_name
  let category_tree := build_category_tree st.categories
  { categories :=
      category_tree.map (fun kv => (kv.1, (update_medicine_count_recursive kv.2).1)),
    medicines := st.medicines }

/-! ### Derived observations on trees and states used by the stated properties -/

mutual

/-- All nodes of a subtree, the root included (pre-order). -/
def allNodesOf : CatNode → List CatNode
  | .mk c n l p m subs => .mk c n l p m subs :: allNodesSubs subs

/-- All nodes of a `subcategories` dict. -/
def allNodesSubs : List (String × CatNode) → List CatNode
  | [] => []
  | (_, t) :: rest => allNodesOf t ++ allNodesSubs rest

end

/-- All category nodes of an assembled forest. -/
def allNodesForest (t : List (String × CatNode)) : List CatNode := allNodesSubs t

/-- All dict keys of an assembled forest, every nesting level included. -/
def treeKeys : List (String × CatNode) → List String
  | [] => []
  | (k, .mk _ _ _ _ _ subs) :: rest => (k :: treeKeys subs) ++ treeKeys rest

/-- Whether an emitted item's `all_category_codes` contains a code; an item
without the key contains nothing. -/
def containsCode (m : Medicine) (k : String) : Bool :=
  (m.all_category_codes.getD []).contains k

/-- P2 / claim C1 as stated: every category node of the assembled tree counts
exactly the emitted items whose `all_category_codes` contains its code. -/
def countConservation (res : SheetResult) : Bool :=
  (allNodesForest res.categories).all (fun n =>
    n.medicine_count == res.medicines.countP (fun m => containsCode m n.code))

/-- Consecutive pairs `(p, c)` of a lineage all satisfy
`parent_code(c) = p` in the flat category mapping. -/
def consecParentOK (cats : List (String × FlatCat)) : List String → Bool
  | [] => true
  | [_] => true
  | p :: c :: rest =>
    ((dictGet? cats c).map (·.parent_code) == some (some p)) &&
      consecParentOK cats (c :: rest)

/-- P1 / claim C2 as stated: every emitted item with a non-empty
`all_category_codes` has parent-linked consecutive pairs and ends at its own
`category_code`. -/
def lineageConsistent (st : ClassifierState) : Bool :=
  st.medicines.all (fun m =>
    match m.all_category_codes with
    | none => true
    | some l =>
      l.isEmpty ||
        (consecParentOK st.categories l && (l.getLast? == m.category_code)))

/-- The codes of the category-header rows of a sheet, in row order, starting
the row index at `idx` (the classifier skips indices 0 and 1 and fully-NaN
rows; a non-empty cleaned first cell marks a header). -/
def headerCodes : Nat → List Row → List String
  | _, [] => []
  | idx, r :: rs =>
    if idx < 2 then headerCodes (idx + 1) rs
    else if rowAllNa r then headerCodes (idx + 1) rs
    else
      let c := clean_text (r.headD none)
      if c ≠ "" then c :: headerCodes (idx + 1) rs else headerCodes (idx + 1) rs

/-- The root-to-`k` chain of parent links of a flat mapping.  The fuel only
serves termination; `k.length` steps always suffice because in every mapping
the classifier produces, a parent's code is strictly shorter than its child's. -/
def pathToAux (cats : List (String × FlatCat)) : Nat → String → List String
  | 0, k => [k]
  | fuel + 1, k =>
    match dictGet? cats k with
    | none => [k]
    | some c =>
      match c.parent_code with
      | none => [k]
      | some p => pathToAux cats fuel p ++ [k]

/-- The root-to-`k` chain of parent links of a flat mapping. -/
def pathTo (cats : List (String × FlatCat)) (k : String) : List String :=
  pathToAux cats k.length k

/-! ### Fallible model of the classifier (claim C8)

`processRowE` is `processRow` again, with the two row operations that Python
could in principle fail on made explicit: the unguarded `row.iloc[0]` read of
source line 32 (an `IndexError` on an empty row) and the
`categories[specific_category_code]` subscripts of source lines 78 and 80 (a
`KeyError` on an unregistered code).  Every guarded read
(`... if i < len(row) else ''`) stays total, as in the source. -/

/-- `row.iloc[0]`, failing on an empty row as Python would. -/
def ilocHeadE (row : Row) : Except String Cell :=
  match row with
  | [] => Except.error "IndexError"
  | c :: _ => Except.ok c

/-- `categories[code]`, failing on a missing key as Python would. -/
def dictGetE (m : List (String × FlatCat)) (k : String) : Except String FlatCat :=
  match dictGet? m k with
  | some v => Except.ok v
  | none => Except.error "KeyError"

/-- `processRow` with the two fallible row operations made explicit. -/
def processRowE (colMap : ColMap) (sheet_name : String) (idx : Nat)
    (st : ClassifierState) (row : Row) : Except String ClassifierState :=
  if idx < 2 then Except.ok st
  else if rowAllNa row then Except.ok st
  else do
    let h ← ilocHeadE row
    let first_col := clean_text h
    if first_col ≠ "" then
      let cat_name := catNameOfRow row
      let code := first_col
      let stack1 := popGE code st.category_stack
      let parent_code := stack1.head?.map (·.1)
      let level := stack1.length + 1
      let cat : FlatCat := ⟨code, cat_name, level, parent_code, 0⟩
      Except.ok { st with
          categories := dictInsert st.categories code cat,
          category_stack := (code, cat_name, level) :: stack1 }
    else
      let name := itemName colMap row
      if name = "" then Except.ok st
      else
        let base : Medicine :=
          { id := sheet_name ++ "_" ++ toString idx, name := name, sheet := sheet_name }
        match st.category_stack with
        | [] =>
            Except.ok { st with medicines := st.medicines ++ [addOptFields colMap row base] }
        | top :: _ => do
            let catRec ← dictGetE st.categories top.1
            let med := addOptFields colMap row
              { base with
                  category_code := some top.1,
                  category_name := some catRec.name,
                  all_category_codes := some ((st.category_stack.map (·.1)).reverse) }
            Except.ok { st with
                categories := dictModify st.categories top.1
                  (fun f => { f with medicine_count := f.medicine_count + 1 }),
                medicines := st.medicines ++ [med] }

/-- The fallible classifier loop. -/
def processRowsE (colMap : ColMap) (sheet_name : String) :
    Nat → ClassifierState → List Row → Except String ClassifierState
  | _, st, [] => Except.ok st
  | idx, st, r :: rs => do
      let st' ← processRowE colMap sheet_name idx st r
      processRowsE colMap sheet_name (idx + 1) st' rs

/-- The fallible classifier pass. -/
def extractFlatE (df : List Row) (sheet_name : String) : Except String ClassifierState :=
  processRowsE (sheet_col_map sheet_name) sheet_name 0 initState df

/-! ### The per-sheet driver loop of `main` (claim C9)

The driver's structural validation (source lines 147-155) raises a
`ValueError` whose message carries the sheet name and the offending item
index; the error is modelled as a structured value holding exactly those two
data.  The `isinstance` checks of lines 148 and 152 cannot fire in this typed
embedding, where the classifier's output is a list of records by construction;
the reachable check is the missing `all_category_codes` key of line 154.
There is no exception handler in `main`: a raised error propagates out of the
sheet loop. -/

/-- The data the driver's `ValueError` message reports. -/
inductive DriverError where
  | missingField (sheet_name : String) (index : Nat)
deriving Repr, DecidableEq

/-- The validation loop of source lines 151-155, enumerating from `i`. -/
def validate_medicines (sheet_name : String) : Nat → List Medicine → Option DriverError
  | _, [] => none
  | i, m :: rest =>
    if m.all_category_codes = none then some (.missingField sheet_name i)
    else validate_medicines sheet_name (i + 1) rest

/-- The sheet loop of `main` (source lines 142-171): each sheet is extracted,
validated and its output emitted; a validation error aborts the whole loop, so
the result is the list of outputs of the sheets processed before the failure,
together with the error, if any. -/
def process_all_sheets : List (String × List Row) → List (String × SheetResult) × Option DriverError
  | [] => ([], none)
  | (sheet_name, df) :: rest =>
    let r := extract_categories_and_medicines df sheet_name
    match validate_medicines sheet_name 0 r.medicines with
    | some e => ([], some e)
    | none =>
      let rest' := process_all_sheets rest
      ((sheet_name, r) :: rest'.1, rest'.2)

/-! ### Spec-side recount (claim C6)

`specCount` and `specFinalize` are written from the spec's words (§4.2 step 3:
"a category's final count is its own direct count plus the sum of its
children's final counts"), to be compared with the source-translated
`update_medicine_count_recursive`. -/

mutual

/-- The cumulative count the spec prescribes: direct count plus the sum of the
children's cumulative counts. -/
def specCount : CatNode → Nat
  | .mk _ _ _ _ mc subs => mc + specCountSubs subs

def specCountSubs : List (String × CatNode) → Nat
  | [] => 0
  | (_, c) :: rest => specCount c + specCountSubs rest

end

mutual

/-- The tree the spec prescribes after the count pass: every node's count
replaced by its cumulative count, everything else unchanged. -/
def specFinalize : CatNode → CatNode
  | .mk c n lv p mc subs => .mk c n lv p (mc + specCountSubs subs) (specFinalizeSubs subs)

def specFinalizeSubs : List (String × CatNode) → List (String × CatNode)
  | [] => []
  | (k, c) :: rest => (k, specFinalize c) :: specFinalizeSubs rest

end

/-- All keyed category records of an assembled forest, in pre-order: each tree
node together with its dict key, its fields read back as a flat record. -/
def treeEntries : List (String × CatNode) → List (String × FlatCat)
  | [] => []
  | (k, .mk c n lv p mc subs) :: rest =>
      (k, ⟨c, n, lv, p, mc⟩) :: (treeEntries subs ++ treeEntries rest)

/-- The children a category key receives in the mounting loop of
`build_category_tree`: the entries whose truthy `parent_code` equals the key. -/
def childrenOf (m : List (String × FlatCat)) (k : String) : List (String × FlatCat) :=
  m.filter (fun kv => kv.2.parent_code = some k ∧ k ≠ "")

/-- Sufficient fuel for `buildNode` below a key: the number of registry entries
with a strictly longer code (every child's code is strictly longer than its
parent's in a classifier registry). -/
def bnFuel (m : List (String × FlatCat)) (k : String) : Nat :=
  m.countP (fun kv => k.length < kv.1.length)

/-- Structural invariant of the classifier's registry: keys are unique and
non-empty, each record's `code` is its key, and every parent link names a
registered, non-empty, strictly shorter code. -/
def RegistryInv (cats : List (String × FlatCat)) : Prop :=
  (cats.map Prod.fst).Nodup ∧
  ∀ k v, dictGet? cats k = some v → v.code = k ∧ k ≠ "" ∧
    ∀ p, v.parent_code = some p →
      p ≠ "" ∧ p.length < k.length ∧ isKey cats p = true

/-- Invariant of the whole classifier state: the registry invariant, plus:
every open stack entry is registered with a non-empty code, consecutive stack
entries are linked by the registry's parent links, and the bottom entry is a
root. -/
def StateInv (st : ClassifierState) : Prop :=
  RegistryInv st.categories ∧
  (∀ e ∈ st.category_stack, isKey st.categories e.1 = true ∧ e.1 ≠ "") ∧
  List.Chain' (fun a b =>
    (dictGet? st.categories a.1).map (·.parent_code) = some (some b.1))
    st.category_stack ∧
  (∀ e, st.category_stack.getLast? = some e →
    (dictGet? st.categories e.1).map (·.parent_code) = some none)

/-- Invariant of the classifier state that holds as long as no category code is
ever re-registered: an uncategorized item carries no lineage, a categorized
item's lineage is exactly the registry's root-to-category parent-link path,
and every registered direct count equals the number of items attached to that
code. -/
def LineageInv (st : ClassifierState) : Prop :=
  (∀ m ∈ st.medicines,
    (m.category_code = none → m.all_category_codes = none) ∧
    (∀ cc, m.category_code = some cc → isKey st.categories cc = true ∧
      m.all_category_codes = some (pathTo st.categories cc))) ∧
  (∀ k v, dictGet? st.categories k = some v →
    v.medicine_count = st.medicines.countP (fun m => m.category_code == some k))

/-! ### Concrete inputs used by the scenario, counterexamples and witnesses -/

/-- A row skipped by the header rule (index 0 or 1). -/
def skipRow : Row := [none]

/-- A category-header row: code in the first cell, display name in the second. -/
def hdrRow (code nm : String) : Row := [some code, some nm]

/-- A category-header row with no display name. -/
def hdrRow1 (code : String) : Row := [some code]

/-- An item row for the `西药部分` layout: empty first cell, item name in
column 13 (the first configured name column of that sheet). -/
def itemRow (nm : String) : Row :=
  [none, none, none, none, none, none, none, none, none, none, none, none, none, some nm]

/-- The §8 scenario input (claim C4). -/
def scenarioRows : List Row :=
  [skipRow, skipRow, hdrRow "A" "Group A", itemRow "Pill1", hdrRow "A1" "Sub A1",
   itemRow "Pill2", hdrRow "B" "Group B", itemRow "Pill3"]

/-- A sheet in which the code `A` appears on two header rows, with one item
attached under each occurrence (claim C1). -/
def dupCodeRows : List Row :=
  [skipRow, skipRow, hdrRow1 "A", itemRow "P1", hdrRow1 "A", itemRow "P2"]

/-- A sheet in which the code `AB` is re-registered under a new parent after
an item has recorded the lineage `[A, AB]` (claim C2). -/
def reparentRows : List Row :=
  [skipRow, skipRow, hdrRow1 "A", hdrRow1 "AB", itemRow "P1", hdrRow1 "B", hdrRow1 "AB"]

/-- Header rows whose codes have lengths `[1, 2, 2, 3, 1]` (claim C3). -/
def stackRows (c1 c2 c2b c3 c1b : String) : List Row :=
  [skipRow, skipRow, hdrRow1 c1, hdrRow1 c2, hdrRow1 c2b, hdrRow1 c3, hdrRow1 c1b]

/-- A sheet whose single item precedes every header row, so its medicine
record lacks `all_category_codes` (claim C9). -/
def orphanItemRows : List Row :=
  [skipRow, skipRow, itemRow "Stray", hdrRow1 "A", itemRow "P1"]

/-- A two-sheet workbook whose first sheet fails validation (claim C9). -/
def twoSheetBook : List (String × List Row) :=
  [("西药部分", orphanItemRows), ("协议西药", [])]

/-! ### Heap model of the assembly pass (claim C7)

`build_category_tree` and `update_medicine_count_recursive` work on mutable
Python dicts: `dict(cat)` makes a shallow copy, `node['subcategories'] = {}`
rebinds the copy's key to a fresh dict, mounting mutates the fresh dicts, and
the count pass mutates `medicine_count` in place.  To check that the input
mapping is never modified, the dicts are modelled explicitly: a heap holds
category objects (addresses into `objs`) and subcategory dicts (addresses into
`dicts`); a flat mapping is an assoc list from code to object address. -/

/-- A category dict object: the five data keys plus the address of the dict
bound to its `subcategories` key. -/
structure PyCatObj where
  code : String
  name : String
  level : Nat
  parent_code : Option String
  medicine_count : Nat
  subs : Nat
deriving Repr, DecidableEq

/-- The store: category objects and subcategory dicts, addressed by index.
A subcategory dict maps a code to a category-object address. -/
structure PyHeap where
  objs : List PyCatObj
  dicts : List (List (String × Nat))
deriving Repr, DecidableEq

def dfltObj : PyCatObj := ⟨"", "", 0, none, 0, 0⟩

def getObj (h : PyHeap) (a : Nat) : PyCatObj := h.objs.getD a dfltObj

def getDict (h : PyHeap) (d : Nat) : List (String × Nat) := h.dicts.getD d []

def setObj (h : PyHeap) (a : Nat) (o : PyCatObj) : PyHeap := ⟨h.objs.set a o, h.dicts⟩

/-- Python dict key assignment on a code-to-address dict: replace the first
binding of the key in place, else append. -/
def dictInsertN : List (String × Nat) → String → Nat → List (String × Nat)
  | [], k, v => [(k, v)]
  | kv :: rest, k, v =>
    if kv.1 = k then (k, v) :: rest else kv :: dictInsertN rest k v

/-- Python dict membership / lookup on a code-to-address dict. -/
def lookupN : List (String × Nat) → String → Option Nat
  | [], _ => none
  | kv :: rest, k => if kv.1 = k then some kv.2 else lookupN rest k

/-- `nodes = {code: dict(cat) for code, cat in categories.items()}` (source
line 110): allocate a shallow copy of every record, in order; the copy's
`subcategories` address is still the original's. -/
def copyPhase : List (String × Nat) → PyHeap → List (String × Nat) × PyHeap
  | [], h => ([], h)
  | ca :: rest, h =>
    let a' := h.objs.length
    let r := copyPhase rest ⟨h.objs ++ [getObj h ca.2], h.dicts⟩
    ((ca.1, a') :: r.1, r.2)

/-- `for node in nodes.values(): node['subcategories'] = {}` (source lines
112-113): rebind every copy's `subcategories` to a freshly allocated empty
dict. -/
def resetPhase : List (String × Nat) → PyHeap → PyHeap
  | [], h => h
  | na :: rest, h =>
    let d' := h.dicts.length
    let o := getObj h na.2
    resetPhase rest ⟨h.objs.set na.2 { o with subs := d' }, h.dicts ++ [[]]⟩

/-- The mounting loop (source lines 115-121): for each copy in order, if its
`parent_code` is truthy and a key of `nodes`, store the copy in the parent
copy's subcategory dict, else store it in the returned top-level dict. -/
def mountPhase (nodes : List (String × Nat)) :
    List (String × Nat) → List (String × Nat) → PyHeap → List (String × Nat) × PyHeap
  | [], tree, h => (tree, h)
  | na :: rest, tree, h =>
    match (getObj h na.2).parent_code with
    | none => mountPhase nodes rest (dictInsertN tree na.1 na.2) h
    | some p =>
      if p = "" then mountPhase nodes rest (dictInsertN tree na.1 na.2) h
      else
        match lookupN nodes p with
        | none => mountPhase nodes rest (dictInsertN tree na.1 na.2) h
        | some pa =>
          let pd := (getObj h pa).subs
          mountPhase nodes rest tree
            ⟨h.objs, h.dicts.set pd (dictInsertN (getDict h pd) na.1 na.2)⟩

/-- `build_category_tree` on the heap (source lines 108-122). -/
def build_category_tree_heap (cats : List (String × Nat)) (h : PyHeap) :
    List (String × Nat) × PyHeap :=
  let c := copyPhase cats h
  let h2 := resetPhase c.1 c.2
  mountPhase c.1 c.1 [] h2

/-- `update_medicine_count_recursive` (source lines 124-134) over a worklist of
object addresses: read the direct count, recurse into the subcategory dict's
values if the dict is truthy (non-empty) and write back the cumulative count,
else leave the object untouched; return the sum of the values the Python calls
return.  The fuel drops by one per nesting level, mirroring the recursion
depth; each mounted structure is a forest of at most `n` nodes, so `n + 1`
fuel is never exhausted on the heaps the assembly builds. -/
def heapCountMany : Nat → PyHeap → List Nat → PyHeap × Nat
  | 0, h, _ => (h, 0)
  | _ + 1, h, [] => (h, 0)
  | fuel + 1, h, a :: rest =>
    let o := getObj h a
    let direct := o.medicine_count
    let entries := getDict h o.subs
    if entries.isEmpty then
      let rr := heapCountMany (fuel + 1) h rest
      (rr.1, direct + rr.2)
    else
      let rc := heapCountMany fuel h (entries.map (·.2))
      let o' := getObj rc.1 a
      let h2 := setObj rc.1 a { o' with medicine_count := direct + rc.2 }
      let rr := heapCountMany (fuel + 1) h2 rest
      (rr.1, (direct + rc.2) + rr.2)

/-- The assembly pass of `extract_categories_and_medicines` (source lines
99-102): build the tree, then run the count update on every root. -/
def assembleHeap (cats : List (String × Nat)) (h : PyHeap) :
    List (String × Nat) × PyHeap :=
  let r := build_category_tree_heap cats h
  (r.1, (heapCountMany (cats.length + 1) r.2 (r.1.map (·.2))).1)

/-- Observation: read a dict of category-object addresses back as a pure
forest, following subcategory dicts down to the given depth. -/
def readMany : Nat → PyHeap → List (String × Nat) → List (String × CatNode)
  | 0, _, _ => []
  | _ + 1, _, [] => []
  | fuel + 1, h, cv :: rest =>
    let o := getObj h cv.2
    (cv.1, .mk o.code o.name o.level o.parent_code o.medicine_count
      (readMany fuel h (getDict h o.subs))) :: readMany (fuel + 1) h rest

/-- Read an assembled top-level dict back as a pure forest. -/
def readForest (h : PyHeap) (fuel : Nat) (tree : List (String × Nat)) :
    List (String × CatNode) :=
  readMany fuel h tree

/-! Pure mirrors of the heap phases, used to show that a run's observable
result depends only on the field contents of the input records, not on where
the run's fresh objects and dicts are allocated. -/

def dfltKV : String × FlatCat := ("", ⟨"", "", 0, none, 0⟩)

/-- The field contents of a flat mapping: each key with the data fields of the
object it references. -/
def contents (cats : List (String × Nat)) (h : PyHeap) : List (String × FlatCat) :=
  cats.map (fun ca =>
    let o := getObj h ca.2
    (ca.1, ⟨o.code, o.name, o.level, o.parent_code, o.medicine_count⟩))

/-- The copies after the reset phase, as pure data: the `i`-th object carries
the `i`-th record's fields and points at the `i`-th fresh dict. -/
def objsOf : List (String × FlatCat) → Nat → List PyCatObj
  | [], _ => []
  | kv :: rest, d =>
    ⟨kv.2.code, kv.2.name, kv.2.level, kv.2.parent_code, kv.2.medicine_count, d⟩ ::
      objsOf rest (d + 1)

/-- The `nodes` dict as pure data: the keys paired with consecutive copy
addresses. -/
def enumKeys : List String → Nat → List (String × Nat)
  | [], _ => []
  | k :: rest, b => (k, b) :: enumKeys rest (b + 1)

/-- First index of a key, mirroring `lookupN` on `enumKeys`. -/
def idxOf : List String → String → Option Nat
  | [], _ => none
  | k' :: rest, k => if k' = k then some 0 else (idxOf rest k).map (· + 1)

/-- Shift every address of a code-to-address dict by an allocation base. -/
def shiftVals (b : Nat) (l : List (String × Nat)) : List (String × Nat) :=
  l.map (fun cv => (cv.1, b + cv.2))

/-- Mirror of `mountPhase` on copy indices: `i` is the index of the next copy,
`tree` and `R` hold indices instead of addresses. -/
def mountRel (keys : List String) :
    Nat → List (String × FlatCat) → List (String × Nat) →
      List (List (String × Nat)) → List (String × Nat) × List (List (String × Nat))
  | _, [], tree, R => (tree, R)
  | i, kv :: rest, tree, R =>
    match kv.2.parent_code with
    | none => mountRel keys (i + 1) rest (dictInsertN tree kv.1 i) R
    | some p =>
      if p = "" then mountRel keys (i + 1) rest (dictInsertN tree kv.1 i) R
      else
        match idxOf keys p with
        | none => mountRel keys (i + 1) rest (dictInsertN tree kv.1 i) R
        | some j => mountRel keys (i + 1) rest tree
            (R.set j (dictInsertN (R.getD j []) kv.1 i))

/-- Mirror of `heapCountMany` on copy indices: the mutable state is the list
of records, the dict store `R` is fixed. -/
def countRelMany (R : List (List (String × Nat))) :
    Nat → List (String × FlatCat) → List Nat → List (String × FlatCat) × Nat
  | 0, flat, _ => (flat, 0)
  | _ + 1, flat, [] => (flat, 0)
  | fuel + 1, flat, i :: rest =>
    let direct := (flat.getD i dfltKV).2.medicine_count
    let entries := R.getD i []
    if entries.isEmpty then
      let rr := countRelMany R (fuel + 1) flat rest
      (rr.1, direct + rr.2)
    else
      let rc := countRelMany R fuel flat (entries.map (·.2))
      let kv' := rc.1.getD i dfltKV
      let flat2 := rc.1.set i (kv'.1, { kv'.2 with medicine_count := direct + rc.2 })
      let rr := countRelMany R (fuel + 1) flat2 rest
      (rr.1, (direct + rc.2) + rr.2)

/-- Mirror of `readMany` on copy indices. -/
def readRelMany (flat : List (String × FlatCat)) (R : List (List (String × Nat))) :
    Nat → List (String × Nat) → List (String × CatNode)
  | 0, _ => []
  | _ + 1, [] => []
  | fuel + 1, cv :: rest =>
    let kv := flat.getD cv.2 dfltKV
    (cv.1, .mk kv.2.code kv.2.name kv.2.level kv.2.parent_code kv.2.medicine_count
      (readRelMany flat R fuel (R.getD cv.2 []))) :: readRelMany flat R (fuel + 1) rest

/-- The reset phase's effect on the copy region: rebind each object's `subs`
to consecutive fresh dict addresses. -/
def resetSubs : List PyCatObj → Nat → List PyCatObj
  | [], _ => []
  | o :: rest, d => { o with subs := d } :: resetSubs rest (d + 1)

/-- A concrete flat mapping on the heap: the scenario registry. -/
def heapCats : List (String × Nat) := [("A", 0), ("A1", 1), ("B", 2)]

/-- A concrete input store for `heapCats`: three records with empty
subcategory dicts. -/
def heapInput : PyHeap :=
  ⟨[⟨"A", "Group A", 1, none, 2, 0⟩,
    ⟨"A1", "Sub A1", 2, some "A", 1, 1⟩,
    ⟨"B", "Group B", 1, none, 1, 2⟩],
   [[], [], []]⟩

/-! ## Theorems -/

/-! ### Helper lemmas -/

theorem ne_of_len_ne {a b : String} (ha : a.length ≠ b.length) : a ≠ b := by
  intro e; exact ha (e ▸ rfl)

mutual

/-- The count pass computes exactly the spec-side recount: the returned node is
the tree with every count replaced by the cumulative count of its subtree, and
the returned value is the root's cumulative count. -/
theorem update_eq_specFinalize : (n : CatNode) →
    update_medicine_count_recursive n = (specFinalize n, specCount n)
  | .mk c nm lv p mc [] => by
      simp [update_medicine_count_recursive, specFinalize, specCount, specFinalizeSubs,
        specCountSubs]
  | .mk c nm lv p mc (s :: ss) => by
      have h := updateSubs_eq_spec (s :: ss)
      simp [update_medicine_count_recursive, specFinalize, specCount, h]

theorem updateSubs_eq_spec : (l : List (String × CatNode)) →
    updateSubs l = (specFinalizeSubs l, specCountSubs l)
  | [] => rfl
  | (k, c) :: rest => by
      have h1 := update_eq_specFinalize c
      have h2 := updateSubs_eq_spec rest
      simp [updateSubs, specFinalizeSubs, specCountSubs, h1, h2]

end

/-! ### Claim C4 — end-to-end scenario -/

/-- C4: on the §8 scenario input (two skipped header rows, then
header("A","Group A"), item "Pill1", header("A1","Sub A1"), item "Pill2",
header("B","Group B"), item "Pill3", with the item names in the sheet's first
configured name column), the output tree is
`{A: level 1, count 2, subcategories {A1: level 2, count 1}}, {B: level 1,
count 1}` and the item list is Pill1 under A, Pill2 under A1 with lineage
`[A, A1]`, Pill3 under B, in row order. -/
theorem claim_C4_scenario :
    extract_categories_and_medicines scenarioRows "西药部分" =
      { categories :=
          [("A", .mk "A" "Group A" 1 none 2 [("A1", .mk "A1" "Sub A1" 2 (some "A") 1 [])]),
           ("B", .mk "B" "Group B" 1 none 1 [])],
        medicines :=
          [{ id := "西药部分_3", name := "Pill1", sheet := "西药部分",
             category_code := some "A", category_name := some "Group A",
             all_category_codes := some ["A"], dosage := some "", note := some "" },
           { id := "西药部分_5", name := "Pill2", sheet := "西药部分",
             category_code := some "A1", category_name := some "Sub A1",
             all_category_codes := some ["A", "A1"], dosage := some "", note := some "" },
           { id := "西药部分_7", name := "Pill3", sheet := "西药部分",
             category_code := some "B", category_name := some "Group B",
             all_category_codes := some ["B"], dosage := some "", note := some "" }] } := by
  decide

/-! ### Claim C3 — stack discipline -/

/-- C3: for header rows carrying codes of lengths `[1, 2, 2, 3, 1]` (the two
same-length pairs distinct, codes already stripped), the classifier assigns
parent links code2→code1, code2b→code1, code3→code2b, and code1b→none. -/
theorem claim_C3_stack_discipline (c1 c2 c2b c3 c1b : String) (sheet_name : String)
    (h1 : c1.length = 1) (h2 : c2.length = 2) (h2b : c2b.length = 2)
    (h3 : c3.length = 3) (h1b : c1b.length = 1)
    (t1 : pyStrip c1 = c1) (t2 : pyStrip c2 = c2) (t2b : pyStrip c2b = c2b)
    (t3 : pyStrip c3 = c3) (t1b : pyStrip c1b = c1b)
    (d2 : c2 ≠ c2b) (d1 : c1 ≠ c1b) :
    ((extractFlat (stackRows c1 c2 c2b c3 c1b) sheet_name).categories).map
        (fun kv => (kv.1, kv.2.parent_code)) =
      [(c1, none), (c2, some c1), (c2b, some c1), (c3, some c2b), (c1b, none)] := by
  have e1 : c1 ≠ "" := by intro e; rw [e] at h1; simp at h1
  have e2 : c2 ≠ "" := by intro e; rw [e] at h2; simp at h2
  have e2b : c2b ≠ "" := by intro e; rw [e] at h2b; simp at h2b
  have e3 : c3 ≠ "" := by intro e; rw [e] at h3; simp at h3
  have e1b : c1b ≠ "" := by intro e; rw [e] at h1b; simp at h1b
  have n12 : c1 ≠ c2 := ne_of_len_ne (by omega)
  have n12b : c1 ≠ c2b := ne_of_len_ne (by omega)
  have n13 : c1 ≠ c3 := ne_of_len_ne (by omega)
  have n21b : c2 ≠ c1b := ne_of_len_ne (by omega)
  have n23 : c2 ≠ c3 := ne_of_len_ne (by omega)
  have n2b3 : c2b ≠ c3 := ne_of_len_ne (by omega)
  have n2b1b : c2b ≠ c1b := ne_of_len_ne (by omega)
  have n31b : c3 ≠ c1b := ne_of_len_ne (by omega)
  simp [extractFlat, stackRows, processRows, processRow, initState, skipRow, hdrRow1,
    rowAllNa, clean_text, catNameOfRow, popGE, dictInsert, t1, t2, t2b, t3, t1b,
    h1, h2, h2b, h3, h1b, e1, e2, e2b, e3, e1b,
    n12, n12b, n13, n21b, n23, n2b3, n2b1b, n31b,
    d2, d1, Ne.symm n12, Ne.symm n12b, Ne.symm n13, Ne.symm n21b, Ne.symm n23,
    Ne.symm n2b3, Ne.symm n2b1b, Ne.symm n31b, Ne.symm d2, Ne.symm d1]

/-- Witness for C3 at the concrete codes `A, BB, CC, DDD, E`. -/
theorem claim_C3_witness :
    ((extractFlat (stackRows "A" "BB" "CC" "DDD" "E") "西药部分").categories).map
        (fun kv => (kv.1, kv.2.parent_code)) =
      [("A", none), ("BB", some "A"), ("CC", some "A"), ("DDD", some "CC"), ("E", none)] :=
  claim_C3_stack_discipline "A" "BB" "CC" "DDD" "E" "西药部分"
    (by decide) (by decide) (by decide) (by decide) (by decide)
    (by decide) (by decide) (by decide) (by decide) (by decide)
    (by decide) (by decide)

/-! ### Claim C6 — cumulative count recursion -/

/-- C6: the recursive count pass returns the tree in which every category's
`medicine_count` is its direct count plus the sum of its children's final
counts (each child updated exactly once, in order), together with the root's
cumulative count; a leaf is returned unchanged. -/
theorem claim_C6_recursive_count (n : CatNode) :
    update_medicine_count_recursive n = (specFinalize n, specCount n) :=
  update_eq_specFinalize n

/-! ### Claim C9 — structural shape error handling -/

/-- C9 counterexample: in a two-sheet workbook whose first sheet has an item
before any header (so its record lacks `all_category_codes`), the driver stops
at the first sheet with the error naming that sheet and index 0, and the
second sheet is NOT processed — its output is absent, contradicting the
claim's "the other sheets are unaffected (they are still processed)". -/
theorem claim_C9_counterexample :
    process_all_sheets twoSheetBook = ([], some (.missingField "西药部分" 0)) := by
  decide

/-- A validation failure is always reported with the validated sheet's name
and the index (counted from the enumeration start) of an item that lacks
`all_category_codes`. -/
theorem validate_medicines_error_spec (sheet_name : String) :
    ∀ (meds : List Medicine) (i : Nat) (e : DriverError),
      validate_medicines sheet_name i meds = some e →
      ∃ j m, e = .missingField sheet_name (i + j) ∧ meds.get? j = some m ∧
        m.all_category_codes = none
  | [], _, _, h => by simp [validate_medicines] at h
  | m :: rest, i, e, h => by
      by_cases hm : m.all_category_codes = none
      · simp only [validate_medicines, if_pos hm, Option.some.injEq] at h
        exact ⟨0, m, by rw [Nat.add_zero]; exact h.symm, rfl, hm⟩
      · simp only [validate_medicines, if_neg hm] at h
        obtain ⟨j, m', he, hg, ha⟩ := validate_medicines_error_spec sheet_name rest (i + 1) e h
        exact ⟨j + 1, m', by rw [he]; congr 1; omega, hg, ha⟩

/-- The sheet loop propagates the first validation error: sheets before the
failing one keep their outputs, the failing sheet and every later sheet emit
nothing. -/
theorem process_all_sheets_stops (sheet_name : String) (df : List Row)
    (rest : List (String × List Row)) (e : DriverError)
    (hfail : validate_medicines sheet_name 0
        (extract_categories_and_medicines df sheet_name).medicines = some e) :
    ∀ pre, (process_all_sheets pre).2 = none →
      process_all_sheets (pre ++ (sheet_name, df) :: rest) =
        ((process_all_sheets pre).1, some e)
  | [], _ => by simp [process_all_sheets, hfail]
  | (s, d) :: pre', hpre => by
      simp only [process_all_sheets] at hpre ⊢
      cases hv : validate_medicines s 0 (extract_categories_and_medicines d s).medicines with
      | some e' => rw [hv] at hpre; simp at hpre
      | none =>
          rw [hv] at hpre
          simp only at hpre
          have ih := process_all_sheets_stops sheet_name df rest e hfail pre' hpre
          simp [ih]

/-- C9 amended: when a sheet's item list fails the driver's structural check
(an item without `all_category_codes`), the run reports an error carrying that
sheet's name and the offending index, that sheet emits no output, the sheets
before it are unaffected — but the loop aborts, so the later sheets are not
processed at all. -/
theorem claim_C9_error_handling (pre : List (String × List Row)) (sheet_name : String)
    (df : List Row) (rest : List (String × List Row)) (e : DriverError)
    (hpre : (process_all_sheets pre).2 = none)
    (hfail : validate_medicines sheet_name 0
        (extract_categories_and_medicines df sheet_name).medicines = some e) :
    process_all_sheets (pre ++ (sheet_name, df) :: rest) =
      ((process_all_sheets pre).1, some e) ∧
    ∃ j m, e = .missingField sheet_name j ∧
      (extract_categories_and_medicines df sheet_name).medicines.get? j = some m ∧
      m.all_category_codes = none := by
  refine ⟨process_all_sheets_stops sheet_name df rest e hfail pre hpre, ?_⟩
  obtain ⟨j, m, he, hg, ha⟩ :=
    validate_medicines_error_spec sheet_name
      (extract_categories_and_medicines df sheet_name).medicines 0 e hfail
  exact ⟨j, m, by simpa using he, hg, ha⟩

/-- Witness for the amended C9 on the concrete two-sheet workbook. -/
theorem claim_C9_witness :
    (process_all_sheets ([] ++ ("西药部分", orphanItemRows) :: [("协议西药", [])]) =
      ((process_all_sheets []).1, some (.missingField "西药部分" 0)) ∧
    ∃ j m, (DriverError.missingField "西药部分" 0) = .missingField "西药部分" j ∧
      (extract_categories_and_medicines orphanItemRows "西药部分").medicines.get? j = some m ∧
      m.all_category_codes = none) :=
  claim_C9_error_handling [] "西药部分" orphanItemRows [("协议西药", [])]
    (.missingField "西药部分" 0) (by decide) (by decide)

/-! ### Claims C1 and C2 — counterexamples (duplicate header codes) -/

/-- C1 counterexample: on the sheet `[A-header, item P1, A-header, item P2]`
the re-registration of code `A` resets its direct count, so the assembled tree
gives `A` a `medicine_count` of 1 while both emitted items carry `A` in
`all_category_codes` — the recount is 2. -/
theorem claim_C1_counterexample :
    countConservation (extract_categories_and_medicines dupCodeRows "西药部分") = false := by
  decide

/-- C2 counterexample: on the sheet `[A, AB, item P1, B, AB]` the item records
the lineage `[A, AB]`, but the later re-registration of `AB` under `B` makes
the final flat mapping carry `parent_code(AB) = B`, so the consecutive pair
`(A, AB)` of the item's lineage no longer matches a parent link. -/
theorem claim_C2_counterexample :
    lineageConsistent (extractFlat reparentRows "西药部分") = false := by
  decide

/-! ### Dictionary and stack lemmas -/

theorem mem_popGE {code : String} : ∀ {s : List StackEntry} {e : StackEntry},
    e ∈ popGE code s → e ∈ s
  | [], _, h => h
  | f :: rest, e, h => by
      by_cases hl : code.length ≤ f.1.length
      · simp only [popGE, if_pos hl] at h
        exact List.mem_cons_of_mem f (mem_popGE h)
      · simp only [popGE, if_neg hl] at h
        exact h

theorem dictGet?_cons (kv : String × FlatCat) (m : List (String × FlatCat)) (j : String) :
    dictGet? (kv :: m) j = if kv.1 = j then some kv.2 else dictGet? m j := by
  by_cases h : kv.1 = j <;> simp [dictGet?, List.find?_cons, h]

theorem isKey_cons (kv : String × FlatCat) (m : List (String × FlatCat)) (j : String) :
    isKey (kv :: m) j = (decide (kv.1 = j) || isKey m j) := by
  simp [isKey, List.any_cons]

theorem isKey_eq_isSome (m : List (String × FlatCat)) (j : String) :
    isKey m j = (dictGet? m j).isSome := by
  induction m with
  | nil => rfl
  | cons kv rest ih =>
      rw [isKey_cons, dictGet?_cons]
      by_cases h : kv.1 = j <;> simp [h, ih]

theorem dictGet?_dictInsert_self : ∀ (m : List (String × FlatCat)) (k : String) (v : FlatCat),
    dictGet? (dictInsert m k v) k = some v
  | [], k, v => by simp [dictInsert, dictGet?, List.find?]
  | kv :: rest, k, v => by
      by_cases h : kv.1 = k
      · simp [dictInsert, h, dictGet?_cons]
      · rw [dictInsert, if_neg h, dictGet?_cons, if_neg h]
        exact dictGet?_dictInsert_self rest k v

theorem dictGet?_dictInsert_ne : ∀ (m : List (String × FlatCat)) (k j : String) (v : FlatCat),
    j ≠ k → dictGet? (dictInsert m k v) j = dictGet? m j
  | [], k, j, v, hj => by simp [dictInsert, dictGet?_cons, Ne.symm hj, dictGet?]
  | kv :: rest, k, j, v, hj => by
      by_cases h : kv.1 = k
      · rw [dictInsert, if_pos h, dictGet?_cons, dictGet?_cons, if_neg (Ne.symm hj), if_neg]
        rw [h]; exact Ne.symm hj
      · rw [dictInsert, if_neg h, dictGet?_cons, dictGet?_cons]
        by_cases h2 : kv.1 = j
        · simp [h2]
        · rw [if_neg h2, if_neg h2]
          exact dictGet?_dictInsert_ne rest k j v hj

theorem dictGet?_dictModify (m : List (String × FlatCat)) (k j : String) (f : FlatCat → FlatCat) :
    dictGet? (dictModify m k f) j =
      if j = k then (dictGet? m j).map f else dictGet? m j := by
  induction m with
  | nil => by_cases h : j = k <;> simp [dictModify, dictGet?, h]
  | cons kv rest ih =>
      simp only [dictModify, List.map_cons] at ih ⊢
      by_cases hk : kv.1 = k
      · by_cases hj : j = k
        · have h1 : kv.1 = j := by rw [hk, hj]
          simp [hk, dictGet?_cons, h1, hj]
        · have h1 : kv.1 ≠ j := by rw [hk]; exact Ne.symm hj
          simp [hk, dictGet?_cons, h1, hj, Ne.symm hj, ih]
      · by_cases h1 : kv.1 = j
        · have hj : j ≠ k := by rw [← h1]; exact hk
          simp [hk, dictGet?_cons, h1, hj]
        · simp [hk, dictGet?_cons, h1, ih]

theorem keys_dictInsert : ∀ (m : List (String × FlatCat)) (k : String) (v : FlatCat),
    (dictInsert m k v).map Prod.fst =
      if isKey m k then m.map Prod.fst else m.map Prod.fst ++ [k]
  | [], k, v => by simp [dictInsert, isKey]
  | kv :: rest, k, v => by
      by_cases h : kv.1 = k
      · simp [dictInsert, h, isKey_cons]
      · rw [dictInsert, if_neg h, List.map_cons, keys_dictInsert rest k v, isKey_cons]
        by_cases h2 : isKey rest k <;> simp [h, h2]

theorem isKey_false_not_mem (m : List (String × FlatCat)) (k : String)
    (h : isKey m k = false) : k ∉ m.map Prod.fst := by
  induction m with
  | nil => simp
  | cons kv rest ih =>
      rw [isKey_cons] at h
      simp only [Bool.or_eq_false_iff, decide_eq_false_iff_not] at h
      simp only [List.map_cons, List.mem_cons]
      rintro (h1 | h1)
      · exact h.1 h1.symm
      · exact ih h.2 h1

theorem nodup_keys_dictInsert (m : List (String × FlatCat)) (k : String) (v : FlatCat)
    (h : (m.map Prod.fst).Nodup) : ((dictInsert m k v).map Prod.fst).Nodup := by
  rw [keys_dictInsert]
  by_cases h2 : isKey m k
  · simpa [h2]
  · rw [if_neg h2]
    simp only [Bool.not_eq_true] at h2
    have := isKey_false_not_mem m k h2
    simp [List.nodup_append, h, this]

theorem dictModify_map_fst (m : List (String × FlatCat)) (k : String) (f : FlatCat → FlatCat) :
    (dictModify m k f).map Prod.fst = m.map Prod.fst := by
  induction m with
  | nil => rfl
  | cons kv rest ih =>
      by_cases h : kv.1 = k
      · simp [dictModify, h] at ih ⊢
        exact ih
      · simp [dictModify, h] at ih ⊢
        exact ih

theorem isKey_dictModify (m : List (String × FlatCat)) (k j : String) (f : FlatCat → FlatCat) :
    isKey (dictModify m k f) j = isKey m j := by
  rw [isKey_eq_isSome, isKey_eq_isSome, dictGet?_dictModify]
  by_cases h : j = k <;> simp [h]

theorem isKey_dictInsert (m : List (String × FlatCat)) (k j : String) (v : FlatCat) :
    isKey (dictInsert m k v) j = (isKey m j || decide (j = k)) := by
  by_cases h : j = k
  · subst h
    rw [isKey_eq_isSome, dictGet?_dictInsert_self]
    simp
  · rw [isKey_eq_isSome, dictGet?_dictInsert_ne m k j v h, ← isKey_eq_isSome]
    simp [h]

/-! ### Claim C8 — totality of the row pass -/

/-- One row never fails: the fallible model takes the same step as the total
one, and the stack-codes-are-registered invariant is preserved. -/
theorem processRowE_ok (colMap : ColMap) (sheet_name : String) (idx : Nat)
    (st : ClassifierState) (row : Row)
    (hinv : ∀ e ∈ st.category_stack, isKey st.categories e.1 = true) :
    processRowE colMap sheet_name idx st row =
      Except.ok (processRow colMap sheet_name idx st row) ∧
    ∀ e ∈ (processRow colMap sheet_name idx st row).category_stack,
      isKey (processRow colMap sheet_name idx st row).categories e.1 = true := by
  by_cases h2 : idx < 2
  · simp only [processRowE, processRow, if_pos h2]
    exact ⟨trivial, hinv⟩
  · by_cases hna : rowAllNa row
    · simp only [processRowE, processRow, if_neg h2, if_pos hna]
      exact ⟨trivial, hinv⟩
    · cases row with
      | nil => simp [rowAllNa] at hna
      | cons c0 rest =>
          simp only [processRowE, processRow, if_neg h2, if_neg hna, ilocHeadE,
            List.headD_cons, Except.bind, bind]
          by_cases hfc : clean_text c0 ≠ ""
          · -- header row
            simp only [if_pos hfc]
            constructor
            · trivial
            · intro e he
              simp only [List.mem_cons] at he
              rcases he with he | he
              · subst he
                simp [isKey_dictInsert]
              · have := hinv e (mem_popGE he)
                simp [isKey_dictInsert, this]
          · -- item row
            simp only [if_neg hfc]
            by_cases hnm : itemName colMap (c0 :: rest) = ""
            · simp only [if_pos hnm]
              exact ⟨trivial, hinv⟩
            · simp only [if_neg hnm]
              cases hs : st.category_stack with
              | nil =>
                  simp only [hs]
                  refine ⟨by trivial, ?_⟩
                  intro e he
                  simp only [hs] at hinv ⊢
                  exact hinv e he
              | cons top srest =>
                  have hkey : isKey st.categories top.1 = true := by
                    apply hinv
                    rw [hs]; exact List.mem_cons_self top srest
                  rw [isKey_eq_isSome] at hkey
                  cases hv : dictGet? st.categories top.1 with
                  | none => rw [hv] at hkey; simp at hkey
                  | some v =>
                      simp only [hs, dictGetE, hv]
                      refine ⟨by trivial, ?_⟩
                      intro e he
                      simp only [hs] at hinv
                      simp only [isKey_dictModify]
                      exact hinv e he

/-- The whole fallible loop never fails, from any state whose stack codes are
registered. -/
theorem processRowsE_ok (colMap : ColMap) (sheet_name : String) :
    ∀ (df : List Row) (idx : Nat) (st : ClassifierState),
      (∀ e ∈ st.category_stack, isKey st.categories e.1 = true) →
      processRowsE colMap sheet_name idx st df =
        Except.ok (processRows colMap sheet_name idx st df)
  | [], _, _, _ => rfl
  | r :: rs, idx, st, hinv => by
      obtain ⟨h1, h2⟩ := processRowE_ok colMap sheet_name idx st r hinv
      have ih := processRowsE_ok colMap sheet_name rs (idx + 1)
        (processRow colMap sheet_name idx st r) h2
      simp only [processRowsE, processRows, h1, bind, Except.bind]
      exact ih

/-- C8: for every column map, sheet name and row list — any row lengths, any
missing cells — the classifier pass completes without a row failure: the
fallible model returns exactly the total model's result, never an error
(out-of-range configured columns read as empty, rows without a resolvable
name are skipped, rows are never a hard failure). -/
theorem claim_C8_totality (colMap : ColMap) (sheet_name : String) (df : List Row) :
    processRowsE colMap sheet_name 0 initState df =
      Except.ok (processRows colMap sheet_name 0 initState df) ∧
    extractFlatE df sheet_name = Except.ok (extractFlat df sheet_name) := by
  have base : ∀ e ∈ initState.category_stack, isKey initState.categories e.1 = true := by
    intro e he
    simp [initState] at he
  exact ⟨processRowsE_ok colMap sheet_name df 0 initState base,
    processRowsE_ok (sheet_col_map sheet_name) sheet_name df 0 initState base⟩

/-! ### Case characterizations of one classifier step -/

theorem processRow_skip (colMap : ColMap) (sheet_name : String) (idx : Nat)
    (st : ClassifierState) (r : Row) (h2 : idx < 2) :
    processRow colMap sheet_name idx st r = st := by
  simp only [processRow, if_pos h2]

theorem processRow_allna (colMap : ColMap) (sheet_name : String) (idx : Nat)
    (st : ClassifierState) (r : Row) (h2 : ¬ idx < 2) (hna : rowAllNa r) :
    processRow colMap sheet_name idx st r = st := by
  simp only [processRow, if_neg h2, if_pos hna]

theorem processRow_header (colMap : ColMap) (sheet_name : String) (idx : Nat)
    (st : ClassifierState) (r : Row) (h2 : ¬ idx < 2) (hna : ¬ rowAllNa r)
    (hfc : clean_text (r.headD none) ≠ "") :
    processRow colMap sheet_name idx st r =
      { categories := dictInsert st.categories (clean_text (r.headD none))
          ⟨clean_text (r.headD none), catNameOfRow r,
            (popGE (clean_text (r.headD none)) st.category_stack).length + 1,
            ((popGE (clean_text (r.headD none)) st.category_stack).head?).map (·.1), 0⟩,
        medicines := st.medicines,
        category_stack :=
          (clean_text (r.headD none), catNameOfRow r,
            (popGE (clean_text (r.headD none)) st.category_stack).length + 1) ::
            popGE (clean_text (r.headD none)) st.category_stack } := by
  simp only [processRow, if_neg h2, if_neg hna, if_pos hfc]

theorem processRow_noname (colMap : ColMap) (sheet_name : String) (idx : Nat)
    (st : ClassifierState) (r : Row) (h2 : ¬ idx < 2) (hna : ¬ rowAllNa r)
    (hfc : ¬ clean_text (r.headD none) ≠ "") (hnm : itemName colMap r = "") :
    processRow colMap sheet_name idx st r = st := by
  simp only [processRow, if_neg h2, if_neg hna, if_neg hfc, if_pos hnm]

theorem processRow_item_nil (colMap : ColMap) (sheet_name : String) (idx : Nat)
    (st : ClassifierState) (r : Row) (h2 : ¬ idx < 2) (hna : ¬ rowAllNa r)
    (hfc : ¬ clean_text (r.headD none) ≠ "") (hnm : ¬ itemName colMap r = "")
    (hs : st.category_stack = []) :
    processRow colMap sheet_name idx st r =
      { categories := st.categories,
        medicines := st.medicines ++ [addOptFields colMap r
          { id := sheet_name ++ "_" ++ toString idx, name := itemName colMap r,
            sheet := sheet_name }],
        category_stack := st.category_stack } := by
  simp only [processRow, if_neg h2, if_neg hna, if_neg hfc, if_neg hnm, hs]

theorem processRow_item_cons (colMap : ColMap) (sheet_name : String) (idx : Nat)
    (st : ClassifierState) (r : Row) (top : StackEntry) (srest : List StackEntry)
    (h2 : ¬ idx < 2) (hna : ¬ rowAllNa r)
    (hfc : ¬ clean_text (r.headD none) ≠ "") (hnm : ¬ itemName colMap r = "")
    (hs : st.category_stack = top :: srest) :
    processRow colMap sheet_name idx st r =
      { categories := dictModify st.categories top.1
          (fun f => { f with medicine_count := f.medicine_count + 1 }),
        medicines := st.medicines ++ [addOptFields colMap r
          { id := sheet_name ++ "_" ++ toString idx, name := itemName colMap r,
            sheet := sheet_name,
            category_code := some top.1,
            category_name := some (((dictGet? st.categories top.1).map (·.name)).getD ""),
            all_category_codes := some ((st.category_stack.map (·.1)).reverse) }],
        category_stack := st.category_stack } := by
  simp only [processRow, if_neg h2, if_neg hna, if_neg hfc, if_neg hnm, hs]

/-! ### Claim C10 — duplicate header codes overwrite the registry entry -/

/-- The optional-field pass never touches the identity or category fields of a
medicine record. -/
theorem addOptFields_core (colMap : ColMap) (row : Row) (m : Medicine) :
    (addOptFields colMap row m).category_code = m.category_code ∧
    (addOptFields colMap row m).all_category_codes = m.all_category_codes ∧
    (addOptFields colMap row m).category_name = m.category_name ∧
    (addOptFields colMap row m).id = m.id ∧
    (addOptFields colMap row m).name = m.name ∧
    (addOptFields colMap row m).sheet = m.sheet := by
  unfold addOptFields
  rcases colMap.dosage with _ | i1 <;> rcases colMap.payment_standard with _ | c1 <;>
    rcases colMap.note with _ | (i2 | c2) <;> rcases colMap.validity_period with _ | i3 <;>
    exact ⟨rfl, rfl, rfl, rfl, rfl, rfl⟩

/-- Once a code is registered, further rows that never re-register it leave its
record intact except for the direct count, which grows by exactly the number of
newly emitted items attached to that code. -/
theorem entry_persists (colMap : ColMap) (sheet_name c : String) :
    ∀ (rows : List Row) (idx : Nat) (st : ClassifierState) (rec : FlatCat),
      dictGet? st.categories c = some rec →
      c ∉ headerCodes idx rows →
      ∃ t, (processRows colMap sheet_name idx st rows).medicines = st.medicines ++ t ∧
        dictGet? (processRows colMap sheet_name idx st rows).categories c =
          some { rec with medicine_count :=
            rec.medicine_count + t.countP (fun m => m.category_code == some c) }
  | [], idx, st, rec, hrec, _ => ⟨[], by simp [processRows], by simpa [processRows] using hrec⟩
  | r :: rs, idx, st, rec, hrec, hno => by
      rw [processRows]
      by_cases h2 : idx < 2
      · rw [headerCodes, if_pos h2] at hno
        rw [processRow_skip colMap sheet_name idx st r h2]
        exact entry_persists colMap sheet_name c rs (idx + 1) st rec hrec hno
      · by_cases hna : rowAllNa r
        · rw [headerCodes, if_neg h2, if_pos hna] at hno
          rw [processRow_allna colMap sheet_name idx st r h2 hna]
          exact entry_persists colMap sheet_name c rs (idx + 1) st rec hrec hno
        · by_cases hfc : clean_text (r.headD none) ≠ ""
          · -- header row with code ≠ c
            rw [headerCodes, if_neg h2, if_neg hna] at hno
            simp only [if_pos hfc, List.mem_cons] at hno
            push_neg at hno
            obtain ⟨hne, hno'⟩ := hno
            rw [processRow_header colMap sheet_name idx st r h2 hna hfc]
            refine entry_persists colMap sheet_name c rs (idx + 1)
              { categories := dictInsert st.categories (clean_text (r.headD none))
                  ⟨clean_text (r.headD none), catNameOfRow r,
                    (popGE (clean_text (r.headD none)) st.category_stack).length + 1,
                    ((popGE (clean_text (r.headD none)) st.category_stack).head?).map (·.1), 0⟩,
                medicines := st.medicines,
                category_stack :=
                  (clean_text (r.headD none), catNameOfRow r,
                    (popGE (clean_text (r.headD none)) st.category_stack).length + 1) ::
                    popGE (clean_text (r.headD none)) st.category_stack } rec ?_ hno'
            show dictGet? (dictInsert st.categories (clean_text (r.headD none)) _) c = some rec
            rw [dictGet?_dictInsert_ne _ _ _ _ hne]
            exact hrec
          · rw [headerCodes, if_neg h2, if_neg hna, if_neg (by simpa using hfc)] at hno
            by_cases hnm : itemName colMap r = ""
            · rw [processRow_noname colMap sheet_name idx st r h2 hna hfc hnm]
              exact entry_persists colMap sheet_name c rs (idx + 1) st rec hrec hno
            · cases hs : st.category_stack with
              | nil =>
                  rw [processRow_item_nil colMap sheet_name idx st r h2 hna hfc hnm hs]
                  obtain ⟨t, ht, hfin⟩ := entry_persists colMap sheet_name c rs (idx + 1)
                    { categories := st.categories,
                      medicines := st.medicines ++ [addOptFields colMap r
                        { id := sheet_name ++ "_" ++ toString idx, name := itemName colMap r,
                          sheet := sheet_name }],
                      category_stack := st.category_stack } rec hrec hno
                  refine ⟨addOptFields colMap r
                    { id := sheet_name ++ "_" ++ toString idx, name := itemName colMap r,
                      sheet := sheet_name } :: t, by simpa using ht, ?_⟩
                  rw [hfin]
                  have hcc := (addOptFields_core colMap r
                    { id := sheet_name ++ "_" ++ toString idx, name := itemName colMap r,
                      sheet := sheet_name }).1
                  simp [List.countP_cons, hcc]
              | cons top srest =>
                  rw [processRow_item_cons colMap sheet_name idx st r top srest h2 hna hfc hnm hs]
                  have hcc := (addOptFields_core colMap r
                    { id := sheet_name ++ "_" ++ toString idx, name := itemName colMap r,
                      sheet := sheet_name,
                      category_code := some top.1,
                      category_name := some (((dictGet? st.categories top.1).map (·.name)).getD ""),
                      all_category_codes := some ((st.category_stack.map (·.1)).reverse) }).1
                  by_cases htop : top.1 = c
                  · have hrec' : dictGet? (dictModify st.categories top.1
                        (fun f => { f with medicine_count := f.medicine_count + 1 })) c =
                        some { rec with medicine_count := rec.medicine_count + 1 } := by
                      rw [dictGet?_dictModify, if_pos htop.symm, hrec]
                      rfl
                    obtain ⟨t, ht, hfin⟩ := entry_persists colMap sheet_name c rs (idx + 1)
                      { categories := dictModify st.categories top.1
                          (fun f => { f with medicine_count := f.medicine_count + 1 }),
                        medicines := st.medicines ++ [addOptFields colMap r
                          { id := sheet_name ++ "_" ++ toString idx, name := itemName colMap r,
                            sheet := sheet_name,
                            category_code := some top.1,
                            category_name := some (((dictGet? st.categories top.1).map (·.name)).getD ""),
                            all_category_codes := some ((st.category_stack.map (·.1)).reverse) }],
                        category_stack := st.category_stack }
                      { rec with medicine_count := rec.medicine_count + 1 } hrec' hno
                    rw [htop] at hcc
                    refine ⟨_ :: t, by simpa using ht, ?_⟩
                    rw [hfin]
                    simp only [List.countP_cons, hcc, htop]
                    have harith : rec.medicine_count + 1 +
                        t.countP (fun m => m.category_code == some c) =
                        rec.medicine_count +
                          (t.countP (fun m => m.category_code == some c) + 1) := by omega
                    simp [harith, hcc]
                  · have hrec' : dictGet? (dictModify st.categories top.1
                        (fun f => { f with medicine_count := f.medicine_count + 1 })) c =
                        some rec := by
                      rw [dictGet?_dictModify, if_neg (fun h => htop h.symm)]
                      exact hrec
                    obtain ⟨t, ht, hfin⟩ := entry_persists colMap sheet_name c rs (idx + 1)
                      { categories := dictModify st.categories top.1
                          (fun f => { f with medicine_count := f.medicine_count + 1 }),
                        medicines := st.medicines ++ [addOptFields colMap r
                          { id := sheet_name ++ "_" ++ toString idx, name := itemName colMap r,
                            sheet := sheet_name,
                            category_code := some top.1,
                            category_name := some (((dictGet? st.categories top.1).map (·.name)).getD ""),
                            all_category_codes := some ((st.category_stack.map (·.1)).reverse) }],
                        category_stack := st.category_stack } rec hrec' hno
                    refine ⟨_ :: t, by simpa using ht, ?_⟩
                    rw [hfin]
                    simp [List.countP_cons, hcc, htop]

/-- One classifier step keeps the registry keys unique. -/
theorem nodup_keys_processRow (colMap : ColMap) (sheet_name : String) (idx : Nat)
    (st : ClassifierState) (r : Row)
    (h : (st.categories.map Prod.fst).Nodup) :
    ((processRow colMap sheet_name idx st r).categories.map Prod.fst).Nodup := by
  by_cases h2 : idx < 2
  · rwa [processRow_skip colMap sheet_name idx st r h2]
  · by_cases hna : rowAllNa r
    · rwa [processRow_allna colMap sheet_name idx st r h2 hna]
    · by_cases hfc : clean_text (r.headD none) ≠ ""
      · rw [processRow_header colMap sheet_name idx st r h2 hna hfc]
        exact nodup_keys_dictInsert _ _ _ h
      · by_cases hnm : itemName colMap r = ""
        · rwa [processRow_noname colMap sheet_name idx st r h2 hna hfc hnm]
        · cases hs : st.category_stack with
          | nil => rwa [processRow_item_nil colMap sheet_name idx st r h2 hna hfc hnm hs]
          | cons top srest =>
              rw [processRow_item_cons colMap sheet_name idx st r top srest h2 hna hfc hnm hs]
              simpa [dictModify_map_fst] using h

/-- The classifier loop keeps the registry keys unique. -/
theorem nodup_keys_processRows (colMap : ColMap) (sheet_name : String) :
    ∀ (rows : List Row) (idx : Nat) (st : ClassifierState),
      (st.categories.map Prod.fst).Nodup →
      ((processRows colMap sheet_name idx st rows).categories.map Prod.fst).Nodup
  | [], _, _, h => h
  | r :: rs, idx, st, h =>
      nodup_keys_processRows colMap sheet_name rs (idx + 1) _
        (nodup_keys_processRow colMap sheet_name idx st r h)

/-- A dict with unique keys holds exactly one record for each of its keys. -/
theorem countP_keys_eq_one (c : String) :
    ∀ (m : List (String × FlatCat)), (m.map Prod.fst).Nodup → isKey m c →
      m.countP (fun kv => kv.1 = c) = 1
  | [], _, hk => by simp [isKey] at hk
  | kv :: rest, hnd, hk => by
      simp only [List.map_cons, List.nodup_cons] at hnd
      by_cases h : kv.1 = c
      · have : rest.countP (fun kv => kv.1 = c) = 0 := by
          rw [List.countP_eq_zero]
          intro x hx
          simp only [decide_eq_true_eq]
          intro hx1
          exact hnd.1 (by rw [h, ← hx1]; exact List.mem_map_of_mem Prod.fst hx)
        simp [List.countP_cons, h, this]
      · simp only [isKey_cons, h] at hk
        simp only [decide_False, Bool.false_or] at hk
        have := countP_keys_eq_one c rest hnd.2 hk
        simp [List.countP_cons, h, this]

/-- C10: when a header row re-registers the code `c` (with no later `c`-header),
the registry immediately holds a single fresh record for `c` — that row's name,
level and parent, direct count restarted at zero — and at the end of the pass
the registry still holds exactly one record for `c`, whose direct count counts
only the items emitted after this header row: items attached between two
`c`-headers no longer contribute. -/
theorem claim_C10_duplicate_overwrite (colMap : ColMap) (sheet_name : String) (idx : Nat)
    (st : ClassifierState) (r : Row) (rest : List Row) (c : String)
    (hidx : ¬ idx < 2) (hna : ¬ rowAllNa r)
    (hc : clean_text (r.headD none) = c) (hcne : c ≠ "")
    (hnodup : (st.categories.map Prod.fst).Nodup)
    (hlater : c ∉ headerCodes (idx + 1) rest) :
    dictGet? (processRow colMap sheet_name idx st r).categories c =
      some ⟨c, catNameOfRow r, (popGE c st.category_stack).length + 1,
            ((popGE c st.category_stack).head?).map (·.1), 0⟩ ∧
    ∃ t, (processRows colMap sheet_name (idx + 1)
            (processRow colMap sheet_name idx st r) rest).medicines =
          st.medicines ++ t ∧
      dictGet? (processRows colMap sheet_name (idx + 1)
            (processRow colMap sheet_name idx st r) rest).categories c =
        some ⟨c, catNameOfRow r, (popGE c st.category_stack).length + 1,
              ((popGE c st.category_stack).head?).map (·.1),
              t.countP (fun m => m.category_code == some c)⟩ ∧
      (processRows colMap sheet_name (idx + 1)
            (processRow colMap sheet_name idx st r) rest).categories.countP
          (fun kv => kv.1 = c) = 1 := by
  have hfc : clean_text (r.headD none) ≠ "" := by rw [hc]; exact hcne
  have hstep := processRow_header colMap sheet_name idx st r hidx hna hfc
  rw [hc] at hstep
  have hrec0 : dictGet? (processRow colMap sheet_name idx st r).categories c =
      some ⟨c, catNameOfRow r, (popGE c st.category_stack).length + 1,
            ((popGE c st.category_stack).head?).map (·.1), 0⟩ := by
    rw [hstep]
    exact dictGet?_dictInsert_self _ _ _
  refine ⟨hrec0, ?_⟩
  obtain ⟨t, ht, hfin⟩ := entry_persists colMap sheet_name c rest (idx + 1)
    (processRow colMap sheet_name idx st r) _ hrec0 hlater
  have hmeds : (processRow colMap sheet_name idx st r).medicines = st.medicines := by
    rw [hstep]
  refine ⟨t, by rw [← hmeds]; exact ht, ?_, ?_⟩
  · rw [hfin]
    simp
  · have hnd1 : ((processRow colMap sheet_name idx st r).categories.map Prod.fst).Nodup :=
      nodup_keys_processRow colMap sheet_name idx st r hnodup
    have hndfin := nodup_keys_processRows colMap sheet_name rest (idx + 1) _ hnd1
    apply countP_keys_eq_one c _ hndfin
    rw [isKey_eq_isSome, hfin]
    rfl

/-- Witness for C10 on the duplicate-code sheet `[A, P1, A, P2]`, at the second
`A` header (row index 4). -/
theorem claim_C10_witness :
    dictGet? (processRow (sheet_col_map "西药部分") "西药部分" 4
        (processRows (sheet_col_map "西药部分") "西药部分" 0 initState
          [skipRow, skipRow, hdrRow1 "A", itemRow "P1"])
        (hdrRow1 "A")).categories "A" =
      some ⟨"A", "",
        (popGE "A" (processRows (sheet_col_map "西药部分") "西药部分" 0 initState
          [skipRow, skipRow, hdrRow1 "A", itemRow "P1"]).category_stack).length + 1,
        ((popGE "A" (processRows (sheet_col_map "西药部分") "西药部分" 0 initState
          [skipRow, skipRow, hdrRow1 "A", itemRow "P1"]).category_stack).head?).map (·.1), 0⟩ ∧
    ∃ t, (processRows (sheet_col_map "西药部分") "西药部分" 5
            (processRow (sheet_col_map "西药部分") "西药部分" 4
              (processRows (sheet_col_map "西药部分") "西药部分" 0 initState
                [skipRow, skipRow, hdrRow1 "A", itemRow "P1"])
              (hdrRow1 "A")) [itemRow "P2"]).medicines =
          (processRows (sheet_col_map "西药部分") "西药部分" 0 initState
            [skipRow, skipRow, hdrRow1 "A", itemRow "P1"]).medicines ++ t ∧
      dictGet? (processRows (sheet_col_map "西药部分") "西药部分" 5
            (processRow (sheet_col_map "西药部分") "西药部分" 4
              (processRows (sheet_col_map "西药部分") "西药部分" 0 initState
                [skipRow, skipRow, hdrRow1 "A", itemRow "P1"])
              (hdrRow1 "A")) [itemRow "P2"]).categories "A" =
        some ⟨"A", "",
          (popGE "A" (processRows (sheet_col_map "西药部分") "西药部分" 0 initState
            [skipRow, skipRow, hdrRow1 "A", itemRow "P1"]).category_stack).length + 1,
          ((popGE "A" (processRows (sheet_col_map "西药部分") "西药部分" 0 initState
            [skipRow, skipRow, hdrRow1 "A", itemRow "P1"]).category_stack).head?).map (·.1),
          t.countP (fun m => m.category_code == some "A")⟩ ∧
      (processRows (sheet_col_map "西药部分") "西药部分" 5
            (processRow (sheet_col_map "西药部分") "西药部分" 4
              (processRows (sheet_col_map "西药部分") "西药部分" 0 initState
                [skipRow, skipRow, hdrRow1 "A", itemRow "P1"])
              (hdrRow1 "A")) [itemRow "P2"]).categories.countP
          (fun kv => kv.1 = "A") = 1 :=
  claim_C10_duplicate_overwrite (sheet_col_map "西药部分") "西药部分" 4
    (processRows (sheet_col_map "西药部分") "西药部分" 0 initState
      [skipRow, skipRow, hdrRow1 "A", itemRow "P1"])
    (hdrRow1 "A") [itemRow "P2"] "A"
    (by decide) (by decide) (by decide) (by decide) (by decide) (by decide)

/-! ### Registry paths: structural lemmas -/

theorem length_ne_zero_of_ne_empty {s : String} (h : s ≠ "") : s.length ≠ 0 := by
  intro h0
  apply h
  cases s with
  | mk data =>
      cases data with
      | nil => rfl
      | cons c rest => simp [String.length] at h0

theorem popGE_head_length (code : String) : ∀ (s : List StackEntry) (e : StackEntry),
    (popGE code s).head? = some e → e.1.length < code.length
  | [], e, h => by simp [popGE] at h
  | f :: rest, e, h => by
      by_cases hl : code.length ≤ f.1.length
      · rw [popGE, if_pos hl] at h
        exact popGE_head_length code rest e h
      · rw [popGE, if_neg hl] at h
        simp only [List.head?_cons, Option.some.injEq] at h
        subst h
        omega

theorem dictGet?_of_mem : ∀ {cats : List (String × FlatCat)} {kv : String × FlatCat},
    (cats.map Prod.fst).Nodup → kv ∈ cats → dictGet? cats kv.1 = some kv.2
  | [], kv, _, hm => by simp at hm
  | kv0 :: rest, kv, hnd, hm => by
      simp only [List.map_cons, List.nodup_cons] at hnd
      rcases List.mem_cons.mp hm with he | hm'
      · subst he
        rw [dictGet?_cons, if_pos rfl]
      · rw [dictGet?_cons]
        by_cases h0 : kv0.1 = kv.1
        · exact absurd (h0 ▸ List.mem_map_of_mem Prod.fst hm') hnd.1
        · rw [if_neg h0]
          exact dictGet?_of_mem hnd.2 hm'

theorem mem_of_dictGet? {cats : List (String × FlatCat)} {k : String} {v : FlatCat}
    (h : dictGet? cats k = some v) : (k, v) ∈ cats := by
  simp only [dictGet?, Option.map_eq_some'] at h
  obtain ⟨kv, hfind, hv⟩ := h
  have hmem := List.mem_of_find?_eq_some hfind
  have hpred := List.find?_some hfind
  simp only [decide_eq_true_eq] at hpred
  have : kv = (k, v) := by
    cases kv
    simp only [Prod.mk.injEq]
    exact ⟨hpred, hv⟩
  rwa [this] at hmem

theorem countP_disjoint_or (p q : α → Bool) :
    ∀ (l : List α), (∀ x ∈ l, ¬(p x = true ∧ q x = true)) →
      l.countP (fun x => p x || q x) = l.countP p + l.countP q
  | [], _ => rfl
  | x :: rest, h => by
      have hr := countP_disjoint_or p q rest (fun y hy => h y (List.mem_cons_of_mem x hy))
      by_cases hp : p x
      · have hq : ¬ q x = true := fun hq => h x (List.mem_cons_self x rest) ⟨hp, hq⟩
        simp [List.countP_cons, hp, hq, hr]
        omega
      · by_cases hq : q x = true <;> simp [List.countP_cons, hp, hq, hr] <;> omega

theorem countP_eq_one_of_unique (p : α → Bool) :
    ∀ (l : List α) (e : α), l.Nodup → e ∈ l → p e = true →
      (∀ x ∈ l, p x = true → x = e) → l.countP p = 1
  | [], e, _, hm, _, _ => by simp at hm
  | x :: rest, e, hnd, hm, hp, hu => by
      rw [List.nodup_cons] at hnd
      by_cases hx : p x
      · have hxe : x = e := hu x (List.mem_cons_self x rest) hx
        have h0 : rest.countP p = 0 := by
          rw [List.countP_eq_zero]
          intro y hy hpy
          have hye : y = e := hu y (List.mem_cons_of_mem x hy) hpy
          exact hnd.1 ((hye.trans hxe.symm) ▸ hy)
        simp [List.countP_cons, hx, h0]
      · have hm' : e ∈ rest := by
          rcases List.mem_cons.mp hm with he | hm'
          · exact absurd (he ▸ hp) (by simpa using hx)
          · exact hm'
        have := countP_eq_one_of_unique p rest e hnd.2 hm' hp
          (fun y hy hpy => hu y (List.mem_cons_of_mem x hy) hpy)
        simp [List.countP_cons, hx, this]

theorem pathToAux_getLast (cats : List (String × FlatCat)) :
    ∀ (fuel : Nat) (k : String), (pathToAux cats fuel k).getLast? = some k
  | 0, k => rfl
  | fuel + 1, k => by
      cases hv : dictGet? cats k with
      | none => simp [pathToAux, hv]
      | some v =>
          cases hp : v.parent_code with
          | none => simp [pathToAux, hv, hp]
          | some p => simp [pathToAux, hv, hp, List.getLast?_concat]

theorem pathTo_getLast (cats : List (String × FlatCat)) (k : String) :
    (pathTo cats k).getLast? = some k :=
  pathToAux_getLast cats k.length k

theorem self_mem_pathTo (cats : List (String × FlatCat)) (k : String) :
    k ∈ pathTo cats k := by
  have h := pathTo_getLast cats k
  obtain ⟨hne, he⟩ := List.mem_getLast?_eq_getLast (show k ∈ (pathTo cats k).getLast? by rw [h]; rfl)
  have hmem := List.getLast_mem hne
  rwa [← he] at hmem

theorem pathTo_ne_nil (cats : List (String × FlatCat)) (k : String) :
    pathTo cats k ≠ [] := by
  intro h
  have := pathTo_getLast cats k
  rw [h] at this
  simp at this

theorem pathToAux_fuel (cats : List (String × FlatCat)) (h : RegistryInv cats) :
    ∀ (fuel : Nat) (k : String), k.length ≤ fuel →
      pathToAux cats fuel k = pathTo cats k := by
  intro fuel
  induction fuel using Nat.strong_induction_on with
  | _ fuel ih =>
      intro k hle
      match fuel with
      | 0 =>
          have hk0 : k.length = 0 := Nat.le_zero.mp hle
          rw [pathTo, hk0]
      | fuel + 1 =>
          rw [pathTo]
          cases hv : dictGet? cats k with
          | none =>
              cases hkl : k.length with
              | zero => simp [pathToAux, hv]
              | succ m => simp [pathToAux, hv]
          | some v =>
              cases hp : v.parent_code with
              | none =>
                  cases hkl : k.length with
                  | zero => simp [pathToAux, hv, hp]
                  | succ m => simp [pathToAux, hv, hp]
              | some p =>
                  have hplen : p.length < k.length := ((h.2 k v hv).2.2 p hp).2.1
                  cases hkl : k.length with
                  | zero => omega
                  | succ m =>
                      have h1 : pathToAux cats fuel p = pathTo cats p :=
                        ih fuel (Nat.lt_succ_self fuel) p (by omega)
                      have h2 : pathToAux cats m p = pathTo cats p :=
                        ih m (by omega) p (by omega)
                      simp [pathToAux, hv, hp, h1, h2]

theorem pathTo_step {cats : List (String × FlatCat)} (h : RegistryInv cats)
    {k : String} {v : FlatCat} {p : String}
    (hv : dictGet? cats k = some v) (hp : v.parent_code = some p) :
    pathTo cats k = pathTo cats p ++ [k] := by
  have hplen : p.length < k.length := ((h.2 k v hv).2.2 p hp).2.1
  cases hkl : k.length with
  | zero => omega
  | succ m =>
      rw [pathTo, hkl]
      simp only [pathToAux, hv, hp]
      rw [pathToAux_fuel cats h m p (by omega)]

theorem pathTo_of_none {cats : List (String × FlatCat)} {k : String}
    (hv : dictGet? cats k = none) : pathTo cats k = [k] := by
  cases hkl : k.length with
  | zero => rw [pathTo, hkl]; rfl
  | succ m => rw [pathTo, hkl]; simp [pathToAux, hv]

theorem pathTo_of_parent_none {cats : List (String × FlatCat)} {k : String} {v : FlatCat}
    (hv : dictGet? cats k = some v) (hp : v.parent_code = none) : pathTo cats k = [k] := by
  cases hkl : k.length with
  | zero => rw [pathTo, hkl]; rfl
  | succ m => rw [pathTo, hkl]; simp [pathToAux, hv, hp]

theorem mem_pathTo_length {cats : List (String × FlatCat)} (h : RegistryInv cats) :
    ∀ (n : Nat) (k j : String), k.length ≤ n → j ∈ pathTo cats k →
      j = k ∨ j.length < k.length := by
  intro n
  induction n using Nat.strong_induction_on with
  | _ n ih =>
      intro k j hle hmem
      cases hv : dictGet? cats k with
      | none =>
          rw [pathTo_of_none hv] at hmem
          simp at hmem
          exact Or.inl hmem
      | some v =>
          cases hp : v.parent_code with
          | none =>
              rw [pathTo_of_parent_none hv hp] at hmem
              simp at hmem
              exact Or.inl hmem
          | some p =>
              rw [pathTo_step h hv hp] at hmem
              have hplen : p.length < k.length := ((h.2 k v hv).2.2 p hp).2.1
              rcases List.mem_append.mp hmem with hm | hm
              · rcases ih p.length (by omega) p j (le_refl _) hm with he | hlt
                · exact Or.inr (he ▸ hplen)
                · exact Or.inr (by omega)
              · simp at hm
                exact Or.inl hm

theorem parent_mem_pathTo {cats : List (String × FlatCat)} (h : RegistryInv cats) :
    ∀ (n : Nat) (k : String), k.length ≤ n →
      ∀ (c : String) (rc : FlatCat) (j : String),
        c ∈ pathTo cats k → dictGet? cats c = some rc → rc.parent_code = some j →
        j ∈ pathTo cats k := by
  intro n
  induction n using Nat.strong_induction_on with
  | _ n ih =>
      intro k hle c rc j hcm hrc hj
      cases hv : dictGet? cats k with
      | none =>
          rw [pathTo_of_none hv] at hcm
          simp at hcm
          rw [hcm, hv] at hrc
          cases hrc
      | some v =>
          cases hp : v.parent_code with
          | none =>
              rw [pathTo_of_parent_none hv hp] at hcm
              simp at hcm
              rw [hcm, hv] at hrc
              cases hrc
              rw [hp] at hj
              cases hj
          | some p =>
              have hplen : p.length < k.length := ((h.2 k v hv).2.2 p hp).2.1
              rw [pathTo_step h hv hp] at hcm ⊢
              rcases List.mem_append.mp hcm with hm | hm
              · exact List.mem_append_left _
                  (ih p.length (by omega) p (le_refl _) c rc j hm hrc hj)
              · simp at hm
                rw [hm, hv] at hrc
                cases hrc
                rw [hp] at hj
                cases hj
                exact List.mem_append_left _ (self_mem_pathTo cats j)

theorem mem_childrenOf {cats : List (String × FlatCat)} {k : String} {kv : String × FlatCat} :
    kv ∈ childrenOf cats k ↔ kv ∈ cats ∧ kv.2.parent_code = some k ∧ k ≠ "" := by
  simp [childrenOf, List.mem_filter]

theorem childrenOf_nodup {cats : List (String × FlatCat)} (h : (cats.map Prod.fst).Nodup)
    (k : String) : (childrenOf cats k).Nodup :=
  (h.of_map Prod.fst).filter _

theorem succ_countP {cats : List (String × FlatCat)} (h : RegistryInv cats) :
    ∀ (n : Nat) (j : String), j.length ≤ n → isKey cats j = true → ∀ (k : String),
      (childrenOf cats k).countP (fun ckv => decide (ckv.1 ∈ pathTo cats j)) =
        if k ∈ pathTo cats j ∧ j ≠ k then 1 else 0 := by
  intro n
  induction n using Nat.strong_induction_on with
  | _ n ih =>
      intro j hle hkey k
      rw [isKey_eq_isSome] at hkey
      cases hvj : dictGet? cats j with
      | none => rw [hvj] at hkey; simp at hkey
      | some vj =>
          cases hp : vj.parent_code with
          | none =>
              rw [pathTo_of_parent_none hvj hp]
              have hrhs : ¬ (k ∈ [j] ∧ j ≠ k) := by
                rintro ⟨hk, hne⟩
                simp at hk
                exact hne hk.symm
              rw [if_neg hrhs, List.countP_eq_zero]
              intro ckv hckv
              simp only [decide_eq_true_eq, List.mem_singleton]
              intro he
              obtain ⟨hmem, hpar, hkne⟩ := mem_childrenOf.mp hckv
              have := dictGet?_of_mem h.1 hmem
              rw [he, hvj] at this
              cases this
              rw [hp] at hpar
              cases hpar
          | some p =>
              have hfacts := (h.2 j vj hvj).2.2 p hp
              have hplen : p.length < j.length := hfacts.2.1
              have hpkey : isKey cats p = true := hfacts.2.2
              rw [pathTo_step h hvj hp]
              -- split the membership predicate
              have hsplit : (childrenOf cats k).countP
                  (fun ckv => decide (ckv.1 ∈ pathTo cats p ++ [j])) =
                  (childrenOf cats k).countP (fun ckv => decide (ckv.1 ∈ pathTo cats p)) +
                  (childrenOf cats k).countP (fun ckv => decide (ckv.1 = j)) := by
                rw [← countP_disjoint_or]
                · apply List.countP_congr
                  intro ckv _
                  simp [List.mem_append]
                · intro ckv hckvmem
                  rintro ⟨h1, h2⟩
                  simp only [decide_eq_true_eq] at h1 h2
                  rw [h2] at h1
                  rcases mem_pathTo_length h p.length p j (le_refl _) h1 with he | hlt
                  · rw [he] at hplen
                    omega
                  · omega
              rw [hsplit]
              have hterm1 := ih p.length (by omega) p (le_refl _) hpkey k
              by_cases hpk : p = k
              · -- the child (j, vj) accounts for exactly one hit
                have hterm2 : (childrenOf cats k).countP (fun ckv => decide (ckv.1 = j)) = 1 := by
                  apply countP_eq_one_of_unique _ _ (j, vj) (childrenOf_nodup h.1 k)
                  · rw [mem_childrenOf]
                    refine ⟨mem_of_dictGet? hvj, by rw [hp, hpk], ?_⟩
                    rw [← hpk]
                    exact hfacts.1
                  · simp
                  · intro x hx hx1
                    simp only [decide_eq_true_eq] at hx1
                    obtain ⟨hmem, _, _⟩ := mem_childrenOf.mp hx
                    have := dictGet?_of_mem h.1 hmem
                    rw [hx1, hvj] at this
                    cases x
                    simp only [Prod.mk.injEq]
                    refine ⟨hx1, ?_⟩
                    injection this with hinj
                    exact hinj.symm
                have hterm1z : (childrenOf cats k).countP
                    (fun ckv => decide (ckv.1 ∈ pathTo cats p)) = 0 := by
                  rw [hterm1, if_neg]
                  rintro ⟨_, hne⟩
                  exact hne hpk
                rw [hterm1z, hterm2]
                rw [if_pos]
                constructor
                · exact List.mem_append_left _ (hpk ▸ self_mem_pathTo cats p)
                · intro he
                  rw [he, ← hpk] at hplen
                  omega
              · have hterm2 : (childrenOf cats k).countP (fun ckv => decide (ckv.1 = j)) = 0 := by
                  rw [List.countP_eq_zero]
                  intro ckv hckv
                  simp only [decide_eq_true_eq]
                  intro he
                  obtain ⟨hmem, hpar, _⟩ := mem_childrenOf.mp hckv
                  have := dictGet?_of_mem h.1 hmem
                  rw [he, hvj] at this
                  cases this
                  rw [hp] at hpar
                  injection hpar with hpar
                  exact hpk hpar
                rw [hterm2, hterm1]
                by_cases hkj : k = j
                · have hknp : k ∉ pathTo cats p := by
                    intro hk
                    rw [hkj] at hk
                    rcases mem_pathTo_length h p.length p j (le_refl _) hk with he | hlt
                    · rw [he] at hplen
                      omega
                    · omega
                  rw [if_neg (by rintro ⟨hk, _⟩; exact hknp hk), if_neg]
                  rintro ⟨_, hne⟩
                  exact hne hkj.symm
                · by_cases hkp : k ∈ pathTo cats p
                  · rw [if_pos ⟨hkp, hpk⟩, if_pos]
                    exact ⟨List.mem_append_left _ hkp, fun he => hkj he.symm⟩
                  · rw [if_neg (by rintro ⟨hk, _⟩; exact hkp hk), if_neg]
                    rintro ⟨hk, hne⟩
                    rcases List.mem_append.mp hk with hm | hm
                    · exact hkp hm
                    · simp at hm
                      exact hkj hm

theorem sum_map_add (g h : α → Nat) :
    ∀ (l : List α), (l.map (fun x => g x + h x)).sum = (l.map g).sum + (l.map h).sum
  | [] => rfl
  | x :: rest => by
      simp only [List.map_cons, List.sum_cons, sum_map_add g h rest]
      omega

theorem sum_map_congr (f g : α → Nat) :
    ∀ (l : List α), (∀ x ∈ l, f x = g x) → (l.map f).sum = (l.map g).sum
  | [], _ => rfl
  | x :: rest, h => by
      simp only [List.map_cons, List.sum_cons]
      rw [h x (List.mem_cons_self x rest),
        sum_map_congr f g rest (fun y hy => h y (List.mem_cons_of_mem x hy))]

theorem sum_filter_eq_sum_ite (p : α → Bool) (w : α → Nat) :
    ∀ (l : List α), ((l.filter p).map w).sum =
      (l.map (fun x => if p x = true then w x else 0)).sum
  | [] => rfl
  | x :: rest => by
      by_cases hx : p x <;>
        simp [List.filter_cons, hx, sum_filter_eq_sum_ite p w rest]

theorem sum_ite_count (p : α → Bool) (a : Nat) :
    ∀ (l : List α), (l.map (fun c => if p c = true then a else 0)).sum = a * l.countP p
  | [] => by simp
  | x :: rest => by
      by_cases hx : p x <;>
        simp [List.countP_cons, hx, sum_ite_count p a rest, Nat.mul_add, Nat.mul_one] <;>
        omega

theorem sum_exchange (f : α → β → Nat) :
    ∀ (A : List α) (B : List β),
      (A.map (fun a => (B.map (f a)).sum)).sum = (B.map (fun b => (A.map (fun a => f a b)).sum)).sum
  | [], B => by simp
  | a0 :: arest, B => by
      simp only [List.map_cons, List.sum_cons, sum_exchange f arest B]
      rw [← sum_map_add]

theorem sum_key_single (w : String × FlatCat → Nat) :
    ∀ (cats : List (String × FlatCat)) (k : String) (rk : FlatCat),
      (cats.map Prod.fst).Nodup → (k, rk) ∈ cats →
      (cats.map (fun kv => if kv.1 = k then w kv else 0)).sum = w (k, rk)
  | [], k, rk, _, hm => by simp at hm
  | kv :: rest, k, rk, hnd, hm => by
      simp only [List.map_cons, List.nodup_cons] at hnd
      rcases List.mem_cons.mp hm with he | hm'
      · have hk1 : kv.1 = k := by rw [← he]
        have hknot : k ∉ List.map Prod.fst rest := hk1 ▸ hnd.1
        have h0 : (rest.map (fun kv => if kv.1 = k then w kv else 0)).sum = 0 := by
          apply List.sum_eq_zero
          intro x hx
          simp only [List.mem_map] at hx
          obtain ⟨y, hy, hxy⟩ := hx
          by_cases hyk : y.1 = k
          · exact absurd (hyk ▸ List.mem_map_of_mem Prod.fst hy) hknot
          · simp [hyk] at hxy
            omega
        rw [← he]
        simp [h0]
      · have hk : kv.1 ≠ k := by
          intro he2
          exact hnd.1 (he2 ▸ List.mem_map_of_mem Prod.fst hm')
        simp only [List.map_cons, List.sum_cons, if_neg hk]
        rw [sum_key_single w rest k rk hnd.2 hm']
        omega

theorem countP_lt_of (p q : α → Bool) :
    ∀ (l : List α) (x : α), x ∈ l → q x = true → p x = false →
      (∀ y ∈ l, p y = true → q y = true) → l.countP p < l.countP q
  | [], x, hm, _, _, _ => by simp at hm
  | a :: rest, x, hm, hq, hp, hmono => by
      rcases List.mem_cons.mp hm with he | hm'
      · subst he
        have h1 : rest.countP p ≤ rest.countP q :=
          List.countP_mono_left (fun y hy => hmono y (List.mem_cons_of_mem x hy))
        simp [List.countP_cons, hq, hp]
        omega
      · have := countP_lt_of p q rest x hm' hq hp
          (fun y hy => hmono y (List.mem_cons_of_mem a hy))
        by_cases ha : p a
        · have hqa := hmono a (List.mem_cons_self a rest) ha
          simp [List.countP_cons, ha, hqa]
          omega
        · simp only [List.countP_cons, ha]
          by_cases hqa : q a <;> simp [hqa] <;> omega

theorem filterPathSum {cats : List (String × FlatCat)} (h : RegistryInv cats)
    (w : String × FlatCat → Nat) (k : String) (rk : FlatCat) (hmem : (k, rk) ∈ cats) :
    ((cats.filter (fun kv => decide (k ∈ pathTo cats kv.1))).map w).sum =
      w (k, rk) +
      ((childrenOf cats k).map (fun ckv =>
        ((cats.filter (fun kv => decide (ckv.1 ∈ pathTo cats kv.1))).map w).sum)).sum := by
  rw [sum_filter_eq_sum_ite]
  rw [sum_map_congr _ (fun ckv =>
      (cats.map (fun kv => if decide (ckv.1 ∈ pathTo cats kv.1) = true then w kv else 0)).sum)
    (childrenOf cats k) (fun ckv _ => sum_filter_eq_sum_ite _ w cats)]
  rw [sum_exchange (fun ckv kv => if decide (ckv.1 ∈ pathTo cats kv.1) = true then w kv else 0)
    (childrenOf cats k) cats]
  have hkey : ∀ kv ∈ cats, ((childrenOf cats k).map
      (fun ckv => if decide (ckv.1 ∈ pathTo cats kv.1) = true then w kv else 0)).sum =
      if k ∈ pathTo cats kv.1 ∧ kv.1 ≠ k then w kv else 0 := by
    intro kv hkv
    have hkvkey : isKey cats kv.1 = true := by
      rw [isKey_eq_isSome, dictGet?_of_mem h.1 hkv]
      rfl
    rw [sum_ite_count, succ_countP h kv.1.length kv.1 (le_refl _) hkvkey k]
    by_cases hc : k ∈ pathTo cats kv.1 ∧ kv.1 ≠ k <;> simp [hc]
  rw [sum_map_congr _ _ cats hkey]
  have hpoint : ∀ kv ∈ cats,
      (if decide (k ∈ pathTo cats kv.1) = true then w kv else 0) =
      (if kv.1 = k then w kv else 0) +
        (if k ∈ pathTo cats kv.1 ∧ kv.1 ≠ k then w kv else 0) := by
    intro kv _
    by_cases he : kv.1 = k
    · rw [he]
      simp [self_mem_pathTo]
    · by_cases hm : k ∈ pathTo cats kv.1 <;> simp [he, hm]
  rw [sum_map_congr _ _ cats hpoint, sum_map_add, sum_key_single w cats k rk h.1 hmem]

theorem treeEntries_cons (k : String) (n : CatNode) (rest : List (String × CatNode)) :
    treeEntries ((k, n) :: rest) = treeEntries [(k, n)] ++ treeEntries rest := by
  cases n
  simp [treeEntries]

theorem treeEntries_map_each (g : String × FlatCat → CatNode) :
    ∀ (l : List (String × FlatCat)),
      treeEntries (l.map (fun kv => (kv.1, g kv))) =
        (l.map (fun kv => treeEntries [(kv.1, g kv)])).join
  | [] => by simp [treeEntries]
  | kv :: rest => by
      simp only [List.map_cons, List.join_cons]
      rw [treeEntries_cons, treeEntries_map_each g rest]

theorem bnFuel_child_lt {cats : List (String × FlatCat)} (h : RegistryInv cats)
    {c : String} {rc : FlatCat} {k : String}
    (hm : (c, rc) ∈ cats) (hp : rc.parent_code = some k) :
    bnFuel cats c < bnFuel cats k := by
  have hget := dictGet?_of_mem h.1 hm
  have hklen : k.length < c.length := ((h.2 c rc hget).2.2 k hp).2.1
  apply countP_lt_of _ _ cats (c, rc) hm
  · simp only [decide_eq_true_eq]
    exact hklen
  · simp
  · intro y _ hy
    simp only [decide_eq_true_eq] at hy ⊢
    omega

theorem entries_buildNode_sum {cats : List (String × FlatCat)} (h : RegistryInv cats)
    (w : String × FlatCat → Nat) :
    ∀ (fuel : Nat) (k : String) (rk : FlatCat), (k, rk) ∈ cats → bnFuel cats k ≤ fuel →
      ((treeEntries [(k, buildNode cats fuel k rk)]).map w).sum =
        ((cats.filter (fun kv => decide (k ∈ pathTo cats kv.1))).map w).sum
  | 0, k, rk, hmem, hfuel => by
      have hch : childrenOf cats k = [] := by
        rw [List.eq_nil_iff_forall_not_mem]
        intro ckv hckv
        obtain ⟨hm, hp, hkne⟩ := mem_childrenOf.mp hckv
        have := bnFuel_child_lt h hm hp
        omega
      rw [filterPathSum h w k rk hmem, hch]
      simp [buildNode, treeEntries]
  | fuel + 1, k, rk, hmem, hfuel => by
      rw [filterPathSum h w k rk hmem]
      have hsubs : treeEntries [(k, buildNode cats (fuel + 1) k rk)] =
          (k, rk) :: (treeEntries ((childrenOf cats k).map
            (fun kv => (kv.1, buildNode cats fuel kv.1 kv.2))) ++ []) := by
        simp [buildNode, treeEntries, childrenOf]
      rw [hsubs]
      simp only [List.append_nil, List.map_cons, List.sum_cons]
      rw [treeEntries_map_each]
      rw [List.map_join, List.sum_join]
      congr 1
      rw [List.map_map, List.map_map]
      apply sum_map_congr
      intro ckv hckv
      obtain ⟨hm, hp, hkne⟩ := mem_childrenOf.mp hckv
      have hlt := bnFuel_child_lt h hm hp
      have hrec := entries_buildNode_sum h w fuel ckv.1 ckv.2
        (by cases ckv; exact hm) (by omega)
      simpa using hrec

/-! ### Preservation of the state invariant -/

theorem chain_all_lt : ∀ {e : StackEntry} {rest : List StackEntry},
    List.Chain' (fun a b => b.1.length < a.1.length) (e :: rest) →
    ∀ x ∈ rest, x.1.length < e.1.length
  | _, [], _, x, hx => by simp at hx
  | e, f :: rest, h, x, hx => by
      rw [List.chain'_cons] at h
      rcases List.mem_cons.mp hx with he | hm
      · rw [he]
        exact h.1
      · have := chain_all_lt h.2 x hm
        omega

theorem popGE_all_lt (code : String) : ∀ (s : List StackEntry),
    List.Chain' (fun a b => b.1.length < a.1.length) s →
    ∀ e ∈ popGE code s, e.1.length < code.length
  | [], _, e, he => by simp [popGE] at he
  | f :: rest, hch, e, he => by
      by_cases hl : code.length ≤ f.1.length
      · rw [popGE, if_pos hl] at he
        exact popGE_all_lt code rest (List.Chain'.tail hch) e he
      · rw [popGE, if_neg hl] at he
        rcases List.mem_cons.mp he with hef | hm
        · rw [hef]
          omega
        · have := chain_all_lt hch e hm
          omega

theorem chain'_popGE {R : StackEntry → StackEntry → Prop} (code : String) :
    ∀ (s : List StackEntry), List.Chain' R s → List.Chain' R (popGE code s)
  | [], h => h
  | f :: rest, h => by
      by_cases hl : code.length ≤ f.1.length
      · rw [popGE, if_pos hl]
        exact chain'_popGE code rest (List.Chain'.tail h)
      · rw [popGE, if_neg hl]
        exact h

theorem popGE_getLast (code : String) : ∀ (s : List StackEntry),
    popGE code s ≠ [] → (popGE code s).getLast? = s.getLast?
  | [], h => rfl
  | f :: rest, h => by
      by_cases hl : code.length ≤ f.1.length
      · rw [popGE, if_pos hl] at h ⊢
        have hrest : rest ≠ [] := by
          intro he
          rw [he] at h
          exact h rfl
        rw [popGE_getLast code rest h]
        cases rest with
        | nil => exact absurd rfl hrest
        | cons a as => simp [List.getLast?_cons_cons]
      · rw [popGE, if_neg hl]

theorem chain'_lookup_congr (cats cats' : List (String × FlatCat)) :
    ∀ (s : List StackEntry),
      (∀ a ∈ s, (dictGet? cats' a.1).map (·.parent_code) =
        (dictGet? cats a.1).map (·.parent_code)) →
      List.Chain' (fun a b =>
        (dictGet? cats a.1).map (·.parent_code) = some (some b.1)) s →
      List.Chain' (fun a b =>
        (dictGet? cats' a.1).map (·.parent_code) = some (some b.1)) s
  | [], _, _ => List.chain'_nil
  | [a], _, _ => List.chain'_singleton a
  | a :: b :: rest, hagree, h => by
      rw [List.chain'_cons] at h ⊢
      refine ⟨?_, chain'_lookup_congr cats cats' (b :: rest)
        (fun x hx => hagree x (List.mem_cons_of_mem a hx)) h.2⟩
      rw [hagree a (List.mem_cons_self a (b :: rest))]
      exact h.1

theorem stack_lengths_chain {st : ClassifierState} (h : StateInv st) :
    List.Chain' (fun a b => b.1.length < a.1.length) st.category_stack := by
  obtain ⟨hreg, hstk, hch, _⟩ := h
  apply List.Chain'.imp ?_ hch
  intro a b hab
  simp only [Option.map_eq_some'] at hab
  obtain ⟨va, hva, hpa⟩ := hab
  exact ((hreg.2 a.1 va hva).2.2 b.1 hpa).2.1

theorem mem_of_head? {l : List α} {e : α} (h : l.head? = some e) : e ∈ l := by
  cases l with
  | nil => cases h
  | cons a as =>
      simp only [List.head?_cons, Option.some.injEq] at h
      rw [← h]
      exact List.mem_cons_self a as

theorem getLast?_cons_of_ne_nil {l : List α} (x : α) (h : l ≠ []) :
    (x :: l).getLast? = l.getLast? := by
  cases l with
  | nil => exact absurd rfl h
  | cons a as => simp [List.getLast?_cons_cons]

theorem mem_of_getLast? {l : List α} {e : α} (h : l.getLast? = some e) : e ∈ l := by
  obtain ⟨hne, hee⟩ := List.mem_getLast?_eq_getLast (show e ∈ l.getLast? by rw [h]; rfl)
  have := List.getLast_mem hne
  rwa [← hee] at this

theorem stateInv_header (cats : List (String × FlatCat)) (meds : List Medicine)
    (stack : List StackEntry) (c cn : String)
    (h : StateInv ⟨cats, meds, stack⟩) (hcne : c ≠ "") :
    StateInv ⟨dictInsert cats c
        ⟨c, cn, (popGE c stack).length + 1, ((popGE c stack).head?).map (·.1), 0⟩,
      meds, (c, cn, (popGE c stack).length + 1) :: popGE c stack⟩ := by
  obtain ⟨hreg, hstk, hch, hlast⟩ := h
  simp only at hreg hstk hch hlast
  obtain ⟨stack1, hs1⟩ : ∃ s, popGE c stack = s := ⟨_, rfl⟩
  rw [hs1]
  set v : FlatCat := ⟨c, cn, stack1.length + 1, stack1.head?.map (·.1), 0⟩ with hv
  have hsorted : List.Chain' (fun a b => b.1.length < a.1.length) stack :=
    @stack_lengths_chain ⟨cats, meds, stack⟩ ⟨hreg, hstk, hch, hlast⟩
  have hstkne : ∀ e ∈ stack1, e.1 ≠ c := by
    intro e he hec
    have hlt := popGE_all_lt c stack hsorted e (hs1 ▸ he)
    rw [hec] at hlt
    omega
  have hagree : ∀ a : String, a ≠ c →
      dictGet? (dictInsert cats c v) a = dictGet? cats a :=
    fun a ha => dictGet?_dictInsert_ne _ _ _ _ ha
  have hsub : ∀ e ∈ stack1, e ∈ stack := fun e he => mem_popGE (hs1 ▸ he)
  refine ⟨⟨nodup_keys_dictInsert _ _ _ hreg.1, ?_⟩, ?_, ?_, ?_⟩
  · -- registry records
    intro k w hw
    simp only at hw
    by_cases hkc : k = c
    · rw [hkc, dictGet?_dictInsert_self] at hw
      injection hw with hw
      rw [← hw]
      refine ⟨by rw [hkc], hkc ▸ hcne, ?_⟩
      intro p hp
      have hp2 : stack1.head?.map (·.1) = some p := hp
      rw [Option.map_eq_some'] at hp2
      obtain ⟨e, hehead, hep⟩ := hp2
      have hmem1 : e ∈ stack1 := mem_of_head? hehead
      have hold := hstk e (hsub e hmem1)
      refine ⟨hep ▸ hold.2, ?_, ?_⟩
      · rw [hkc, ← hep]
        exact popGE_head_length c stack e (by rw [hs1]; exact hehead)
      · rw [isKey_dictInsert, ← hep]
        simp [hold.1]
    · rw [dictGet?_dictInsert_ne _ _ _ _ hkc] at hw
      obtain ⟨hcode, hkne, hpar⟩ := hreg.2 k w hw
      refine ⟨hcode, hkne, ?_⟩
      intro p hp
      obtain ⟨hpne, hplt, hpkey⟩ := hpar p hp
      refine ⟨hpne, hplt, ?_⟩
      rw [isKey_dictInsert]
      simp [hpkey]
  · -- stack entries registered, non-empty codes
    intro e he
    simp only at he ⊢
    rcases List.mem_cons.mp he with he0 | he1
    · rw [he0]
      refine ⟨?_, hcne⟩
      rw [isKey_eq_isSome, dictGet?_dictInsert_self]
      rfl
    · have hold := hstk e (hsub e he1)
      refine ⟨?_, hold.2⟩
      rw [isKey_dictInsert]
      simp [hold.1]
  · -- chain
    simp only
    rw [List.chain'_cons']
    constructor
    · intro b hb
      rw [dictGet?_dictInsert_self]
      simp only [Option.map_some']
      congr 1
      show v.parent_code = some b.1
      rw [hv]
      show stack1.head?.map (·.1) = some b.1
      cases hh : stack1.head? with
      | none => rw [hh] at hb; cases hb
      | some a =>
          rw [hh] at hb
          simp only [Option.mem_def, Option.some.injEq] at hb
          rw [hb]
          rfl
    · have hch1 : List.Chain' (fun a b =>
          (dictGet? cats a.1).map (·.parent_code) = some (some b.1)) stack1 := by
        rw [← hs1]
        exact chain'_popGE c stack hch
      exact chain'_lookup_congr cats _ stack1
        (fun a ha => by rw [hagree a.1 (hstkne a ha)]) hch1
  · -- last entry is a root
    intro e he
    simp only at he ⊢
    cases hs1e : stack1 with
    | nil =>
        rw [hs1e] at he
        simp only [List.getLast?_singleton, Option.some.injEq] at he
        rw [← he, dictGet?_dictInsert_self]
        simp only [Option.map_some']
        congr 1
        show v.parent_code = none
        rw [hv]
        show stack1.head?.map (·.1) = none
        rw [hs1e]
        rfl
    | cons a as =>
        have hne : stack1 ≠ [] := by rw [hs1e]; exact List.cons_ne_nil a as
        rw [getLast?_cons_of_ne_nil _ hne] at he
        have hmem : e ∈ stack1 := mem_of_getLast? he
        have holdlast : (dictGet? cats e.1).map (·.parent_code) = some none := by
          apply hlast
          rw [← popGE_getLast c stack (by rw [hs1]; exact hne), hs1]
          exact he
        rw [hagree e.1 (hstkne e hmem)]
        exact holdlast

theorem stateInv_item (cats : List (String × FlatCat)) (meds meds' : List Medicine)
    (stack : List StackEntry) (c : String)
    (h : StateInv ⟨cats, meds, stack⟩) :
    StateInv ⟨dictModify cats c (fun f => { f with medicine_count := f.medicine_count + 1 }),
      meds', stack⟩ := by
  obtain ⟨hreg, hstk, hch, hlast⟩ := h
  simp only at hreg hstk hch hlast
  have hagree : ∀ (a : String),
      (dictGet? (dictModify cats c
          (fun f => { f with medicine_count := f.medicine_count + 1 })) a).map
        (·.parent_code) =
      (dictGet? cats a).map (·.parent_code) := by
    intro a
    rw [dictGet?_dictModify]
    by_cases ha : a = c
    · rw [if_pos ha]
      cases dictGet? cats a <;> simp
    · rw [if_neg ha]
  refine ⟨⟨?_, ?_⟩, ?_, ?_, ?_⟩
  · rw [dictModify_map_fst]
    exact hreg.1
  · intro k w hw
    simp only at hw
    rw [dictGet?_dictModify] at hw
    by_cases hk : k = c
    · rw [if_pos hk] at hw
      cases hv0 : dictGet? cats k with
      | none => rw [hv0] at hw; cases hw
      | some v0 =>
          rw [hv0] at hw
          simp only [Option.map_some', Option.some.injEq] at hw
          obtain ⟨hcode, hkne, hpar⟩ := hreg.2 k v0 hv0
          rw [← hw]
          refine ⟨hcode, hkne, ?_⟩
          intro p hp
          obtain ⟨hpne, hplt, hpkey⟩ := hpar p hp
          exact ⟨hpne, hplt, by rw [isKey_dictModify]; exact hpkey⟩
    · rw [if_neg hk] at hw
      obtain ⟨hcode, hkne, hpar⟩ := hreg.2 k w hw
      refine ⟨hcode, hkne, ?_⟩
      intro p hp
      obtain ⟨hpne, hplt, hpkey⟩ := hpar p hp
      exact ⟨hpne, hplt, by rw [isKey_dictModify]; exact hpkey⟩
  · intro e he
    have hold := hstk e he
    exact ⟨by rw [isKey_dictModify]; exact hold.1, hold.2⟩
  · exact chain'_lookup_congr cats _ stack (fun a _ => hagree a.1) hch
  · intro e he
    rw [hagree e.1]
    exact hlast e he

theorem stateInv_processRow (colMap : ColMap) (sheet_name : String) (idx : Nat)
    (st : ClassifierState) (r : Row) (h : StateInv st) :
    StateInv (processRow colMap sheet_name idx st r) := by
  by_cases h2 : idx < 2
  · rwa [processRow_skip colMap sheet_name idx st r h2]
  · by_cases hna : rowAllNa r
    · rwa [processRow_allna colMap sheet_name idx st r h2 hna]
    · by_cases hfc : clean_text (r.headD none) ≠ ""
      · rw [processRow_header colMap sheet_name idx st r h2 hna hfc]
        have := stateInv_header st.categories st.medicines st.category_stack
          (clean_text (r.headD none)) (catNameOfRow r) (by cases st; exact h) hfc
        exact this
      · by_cases hnm : itemName colMap r = ""
        · rwa [processRow_noname colMap sheet_name idx st r h2 hna hfc hnm]
        · cases hs : st.category_stack with
          | nil =>
              rw [processRow_item_nil colMap sheet_name idx st r h2 hna hfc hnm hs]
              obtain ⟨hreg, hstk, hch, hlast⟩ := h
              exact ⟨hreg, hstk, hch, hlast⟩
          | cons top srest =>
              rw [processRow_item_cons colMap sheet_name idx st r top srest h2 hna hfc hnm hs]
              have := stateInv_item st.categories st.medicines
                (st.medicines ++ [addOptFields colMap r
                  { id := sheet_name ++ "_" ++ toString idx, name := itemName colMap r,
                    sheet := sheet_name,
                    category_code := some top.1,
                    category_name := some (((dictGet? st.categories top.1).map (·.name)).getD ""),
                    all_category_codes := some ((st.category_stack.map (·.1)).reverse) }])
                st.category_stack top.1 (by cases st; exact h)
              exact this

theorem stateInv_processRows (colMap : ColMap) (sheet_name : String) :
    ∀ (rows : List Row) (idx : Nat) (st : ClassifierState), StateInv st →
      StateInv (processRows colMap sheet_name idx st rows)
  | [], _, _, h => h
  | r :: rs, idx, st, h =>
      stateInv_processRows colMap sheet_name rs (idx + 1) _
        (stateInv_processRow colMap sheet_name idx st r h)

theorem stateInv_initState : StateInv initState := by
  refine ⟨⟨List.nodup_nil, ?_⟩, ?_, List.chain'_nil, ?_⟩
  · intro k v hv
    simp [initState, dictGet?] at hv
  · intro e he
    simp [initState] at he
  · intro e he
    simp [initState] at he

theorem stateInv_extractFlat (df : List Row) (sheet_name : String) :
    StateInv (extractFlat df sheet_name) :=
  stateInv_processRows (sheet_col_map sheet_name) sheet_name df 0 initState stateInv_initState

/-! ### Roots of parent-link paths -/

theorem pathTo_head_root {cats : List (String × FlatCat)} (h : RegistryInv cats) :
    ∀ (n : Nat) (j : String), j.length ≤ n → isKey cats j = true →
      ∃ hd rhd, (pathTo cats j).head? = some hd ∧ dictGet? cats hd = some rhd ∧
        rhd.parent_code = none := by
  intro n
  induction n using Nat.strong_induction_on with
  | _ n ih =>
      intro j hle hkey
      rw [isKey_eq_isSome] at hkey
      cases hv : dictGet? cats j with
      | none => rw [hv] at hkey; simp at hkey
      | some v =>
          cases hp : v.parent_code with
          | none =>
              refine ⟨j, v, ?_, hv, hp⟩
              rw [pathTo_of_parent_none hv hp]
              rfl
          | some p =>
              have hfacts := (h.2 j v hv).2.2 p hp
              have hpkey := hfacts.2.2
              have hplen := hfacts.2.1
              obtain ⟨hd, rhd, hhead, hget, hnone⟩ :=
                ih p.length (by omega) p (le_refl _) hpkey
              refine ⟨hd, rhd, ?_, hget, hnone⟩
              rw [pathTo_step h hv hp, List.head?_append_of_ne_nil]
              · exact hhead
              · exact pathTo_ne_nil cats p

theorem root_in_path_eq_head {cats : List (String × FlatCat)} (h : RegistryInv cats) :
    ∀ (n : Nat) (j : String), j.length ≤ n →
      ∀ (r : String) (rr : FlatCat), r ∈ pathTo cats j →
        dictGet? cats r = some rr → rr.parent_code = none →
        (pathTo cats j).head? = some r := by
  intro n
  induction n using Nat.strong_induction_on with
  | _ n ih =>
      intro j hle r rr hmem hget hnone
      cases hv : dictGet? cats j with
      | none =>
          rw [pathTo_of_none hv] at hmem ⊢
          simp at hmem
          rw [hmem]
          rfl
      | some v =>
          cases hp : v.parent_code with
          | none =>
              rw [pathTo_of_parent_none hv hp] at hmem ⊢
              simp at hmem
              rw [hmem]
              rfl
          | some p =>
              have hfacts := (h.2 j v hv).2.2 p hp
              have hplen := hfacts.2.1
              rw [pathTo_step h hv hp] at hmem ⊢
              rcases List.mem_append.mp hmem with hm | hm
              · rw [List.head?_append_of_ne_nil _ (pathTo_ne_nil cats p)]
                exact ih p.length (by omega) p (le_refl _) r rr hm hget hnone
              · simp only [List.mem_singleton] at hm
                rw [hm, hv] at hget
                injection hget with hget
                rw [hget] at hp
                rw [hp] at hnone
                cases hnone

/-! ### Claim C5 — forest closure -/

theorem attachable_eq_isSome {cats : List (String × FlatCat)} (h : RegistryInv cats)
    {k : String} {v : FlatCat} (hv : dictGet? cats k = some v) :
    attachable cats v.parent_code = v.parent_code.isSome := by
  cases hp : v.parent_code with
  | none => rfl
  | some p =>
      obtain ⟨hpne, _, hpkey⟩ := (h.2 k v hv).2.2 p hp
      simp [attachable, parentTruthy, hpne, hpkey]

theorem rootCount {cats : List (String × FlatCat)} (h : RegistryInv cats)
    (kv0 : String × FlatCat) (hm0 : kv0 ∈ cats) :
    (cats.filter (fun kv => !attachable cats kv.2.parent_code)).countP
      (fun rkv => decide (rkv.1 ∈ pathTo cats kv0.1)) = 1 := by
  have hkey0 : isKey cats kv0.1 = true := by
    rw [isKey_eq_isSome, dictGet?_of_mem h.1 hm0]
    rfl
  obtain ⟨hd, rhd, hhead, hget, hnone⟩ :=
    pathTo_head_root h kv0.1.length kv0.1 (le_refl _) hkey0
  apply countP_eq_one_of_unique _ _ (hd, rhd)
  · exact (h.1.of_map Prod.fst).filter _
  · rw [List.mem_filter]
    refine ⟨mem_of_dictGet? hget, ?_⟩
    rw [attachable_eq_isSome h hget, hnone]
    rfl
  · simp only [decide_eq_true_eq]
    exact mem_of_head? hhead
  · intro x hx hpx
    simp only [decide_eq_true_eq] at hpx
    rw [List.mem_filter] at hx
    have hxget : dictGet? cats x.1 = some x.2 := dictGet?_of_mem h.1 hx.1
    have hxnone : x.2.parent_code = none := by
      have := hx.2
      rw [attachable_eq_isSome h hxget] at this
      cases hxp : x.2.parent_code with
      | none => rfl
      | some p => rw [hxp] at this; simp at this
    have hheadx := root_in_path_eq_head h kv0.1.length kv0.1 (le_refl _) x.1 x.2 hpx hxget hxnone
    rw [hhead] at hheadx
    injection hheadx with hx1
    have hxv : x.2 = rhd := by
      rw [hx1] at hget
      rw [hxget] at hget
      exact Option.some_injective _ hget
    cases x
    simp only at hx1 hxv
    rw [hx1, hxv]

theorem countP_eq_sum_ite (p : α → Bool) (l : List α) :
    l.countP p = (l.map (fun x => if p x = true then 1 else 0)).sum := by
  rw [sum_ite_count p 1 l, Nat.one_mul]

theorem treeKeys_eq_entries : ∀ (t : List (String × CatNode)),
    treeKeys t = (treeEntries t).map Prod.fst
  | [] => by simp [treeKeys, treeEntries]
  | (k, .mk c n lv p mc subs) :: rest => by
      simp only [treeKeys, treeEntries, List.map_cons, List.map_append]
      rw [treeKeys_eq_entries subs, treeKeys_eq_entries rest]
      simp

theorem countP_fst_entries (j : String) (t : List (String × CatNode)) :
    (treeKeys t).countP (fun s => s = j) =
      ((treeEntries t).map (fun kv => if kv.1 = j then 1 else 0)).sum := by
  rw [treeKeys_eq_entries, countP_eq_sum_ite, List.map_map]
  apply sum_map_congr
  intro kv _
  simp

theorem sum_w_join_each (w : String × FlatCat → Nat) (g : String × FlatCat → CatNode) :
    ∀ (l : List (String × FlatCat)),
      ((treeEntries (l.map (fun kv => (kv.1, g kv)))).map w).sum =
        (l.map (fun kv => ((treeEntries [(kv.1, g kv)]).map w).sum)).sum
  | [] => by simp [treeEntries]
  | kv :: rest => by
      simp only [List.map_cons, List.sum_cons]
      rw [treeEntries_cons, List.map_append, List.sum_append, sum_w_join_each w g rest]

theorem claim_C5_pre (cats : List (String × FlatCat)) (h : RegistryInv cats) (j : String) :
    (treeKeys (build_category_tree cats)).countP (fun s => s = j) =
      (cats.map Prod.fst).countP (fun s => s = j) := by
  rw [countP_fst_entries]
  rw [build_category_tree]
  set w : String × FlatCat → Nat := fun kv => if kv.1 = j then 1 else 0 with hw
  rw [sum_w_join_each w (fun kv => buildNode cats cats.length kv.1 kv.2)]
  have hper : ∀ kv ∈ cats.filter (fun kv => !attachable cats kv.2.parent_code),
      ((treeEntries [(kv.1, buildNode cats cats.length kv.1 kv.2)]).map w).sum =
        (cats.map (fun kv2 =>
          if decide (kv.1 ∈ pathTo cats kv2.1) = true then w kv2 else 0)).sum := by
    intro kv hkv
    rw [List.mem_filter] at hkv
    have := entries_buildNode_sum h w cats.length kv.1 kv.2
      (by cases kv; exact hkv.1) (List.countP_le_length _)
    rw [this, sum_filter_eq_sum_ite]
  rw [sum_map_congr
    (fun kv => ((treeEntries [(kv.1, buildNode cats cats.length kv.1 kv.2)]).map w).sum)
    (fun kv => (cats.map (fun kv2 =>
      if decide (kv.1 ∈ pathTo cats kv2.1) = true then w kv2 else 0)).sum)
    (cats.filter (fun kv => !attachable cats kv.2.parent_code)) hper]
  rw [sum_exchange (fun rkv kv2 => if decide (rkv.1 ∈ pathTo cats kv2.1) = true then w kv2 else 0)
    (cats.filter (fun kv => !attachable cats kv.2.parent_code)) cats]
  have hinner : ∀ kv2 ∈ cats,
      ((cats.filter (fun kv => !attachable cats kv.2.parent_code)).map
        (fun rkv => if decide (rkv.1 ∈ pathTo cats kv2.1) = true then w kv2 else 0)).sum =
        w kv2 := by
    intro kv2 hkv2
    rw [sum_ite_count, rootCount h kv2 hkv2, Nat.mul_one]
  rw [sum_map_congr _ _ cats hinner]
  rw [countP_eq_sum_ite, List.map_map]
  apply sum_map_congr
  intro kv _
  simp [hw]

theorem entry_unique {cats : List (String × FlatCat)} (hnd : (cats.map Prod.fst).Nodup)
    {kv kv' : String × FlatCat} (h1 : kv ∈ cats) (h2 : kv' ∈ cats) (he : kv'.1 = kv.1) :
    kv' = kv := by
  have g1 := dictGet?_of_mem hnd h1
  have g2 := dictGet?_of_mem hnd h2
  rw [he, g1] at g2
  cases kv
  cases kv'
  simp only at he g2
  rw [he]
  injection g2 with g2
  rw [g2]

theorem mem_map_fst_filter {cats : List (String × FlatCat)}
    (hnd : (cats.map Prod.fst).Nodup) (p : String × FlatCat → Bool)
    {kv : String × FlatCat} (hm : kv ∈ cats) :
    kv.1 ∈ (cats.filter p).map Prod.fst ↔ p kv = true := by
  constructor
  · intro h
    obtain ⟨kv', hkv', he⟩ := List.mem_map.mp h
    rw [List.mem_filter] at hkv'
    have := entry_unique hnd hm hkv'.1 he
    rw [← this]
    exact hkv'.2
  · intro h
    exact List.mem_map_of_mem Prod.fst (List.mem_filter.mpr ⟨hm, h⟩)

/-- C5: for every registry the classifier produces, the assembled result is a
forest containing every category exactly once — the dict keys of the tree, all
levels included, are exactly the registry keys (no duplicates, no orphans) —
and a category sits at the top level precisely when its `parent_code` is not
attachable (absent, empty, or not a registry key). -/
theorem claim_C5_forest_closure (df : List Row) (sheet_name : String) :
    ((extractFlat df sheet_name).categories.map Prod.fst).Nodup ∧
    (∀ j, (treeKeys (build_category_tree (extractFlat df sheet_name).categories)).countP
        (fun s => s = j) =
      ((extractFlat df sheet_name).categories.map Prod.fst).countP (fun s => s = j)) ∧
    (∀ kv ∈ (extractFlat df sheet_name).categories,
      (kv.1 ∈ (build_category_tree (extractFlat df sheet_name).categories).map Prod.fst ↔
        attachable (extractFlat df sheet_name).categories kv.2.parent_code = false)) := by
  have hreg : RegistryInv (extractFlat df sheet_name).categories :=
    (stateInv_extractFlat df sheet_name).1
  refine ⟨hreg.1, fun j => claim_C5_pre _ hreg j, ?_⟩
  intro kv hkv
  have hmapfst : (build_category_tree (extractFlat df sheet_name).categories).map Prod.fst =
      ((extractFlat df sheet_name).categories.filter
        (fun kv => !attachable (extractFlat df sheet_name).categories kv.2.parent_code)).map
        Prod.fst := by
    rw [build_category_tree, List.map_map]
    rfl
  rw [hmapfst, mem_map_fst_filter hreg.1 _ hkv]
  simp


/-! ### Lineage invariant, path consistency, and the amended C2 -/
theorem pathToAux_congr {cats cats' : List (String × FlatCat)} (h : RegistryInv cats)
    (hagree : ∀ j, isKey cats j = true →
      (dictGet? cats' j).map (·.parent_code) = (dictGet? cats j).map (·.parent_code)) :
    ∀ (fuel : Nat) (k : String), isKey cats k = true →
      pathToAux cats' fuel k = pathToAux cats fuel k
  | 0, k, _ => rfl
  | fuel + 1, k, hkey => by
      have hkey' := hkey
      rw [isKey_eq_isSome] at hkey'
      cases hv : dictGet? cats k with
      | none => rw [hv] at hkey'; simp at hkey'
      | some v =>
          have hag := hagree k hkey
          rw [hv] at hag
          simp only [Option.map_some', Option.map_eq_some'] at hag
          obtain ⟨v', hv', hpar⟩ := hag
          cases hp : v.parent_code with
          | none =>
              rw [hp] at hpar
              simp only [pathToAux, hv, hp, hv', hpar]
          | some p =>
              rw [hp] at hpar
              have hpkey : isKey cats p = true := ((h.2 k v hv).2.2 p hp).2.2
              simp only [pathToAux, hv, hp, hv', hpar]
              rw [pathToAux_congr h hagree fuel p hpkey]

theorem pathTo_congr {cats cats' : List (String × FlatCat)} (h : RegistryInv cats)
    (hagree : ∀ j, isKey cats j = true →
      (dictGet? cats' j).map (·.parent_code) = (dictGet? cats j).map (·.parent_code))
    (k : String) (hkey : isKey cats k = true) :
    pathTo cats' k = pathTo cats k :=
  pathToAux_congr h hagree k.length k hkey

theorem stack_path {cats : List (String × FlatCat)} (hreg : RegistryInv cats) :
    ∀ (s : List StackEntry),
      (∀ e ∈ s, isKey cats e.1 = true) →
      List.Chain' (fun a b =>
        (dictGet? cats a.1).map (·.parent_code) = some (some b.1)) s →
      (∀ e, s.getLast? = some e →
        (dictGet? cats e.1).map (·.parent_code) = some none) →
      ∀ (top : StackEntry) (rest : List StackEntry), s = top :: rest →
        (s.map (·.1)).reverse = pathTo cats top.1
  | [], _, _, _, top, rest, he => by cases he
  | [e0], hk, hch, hlast, top, rest, he => by
      injection he with he1 he2
      subst he1
      have hroot := hlast e0 rfl
      simp only [Option.map_eq_some'] at hroot
      obtain ⟨v, hv, hp⟩ := hroot
      rw [pathTo_of_parent_none hv hp]
      rfl
  | e0 :: e1 :: rest0, hk, hch, hlast, top, rest, he => by
      injection he with he1 he2
      subst he1
      rw [List.chain'_cons] at hch
      have hlink := hch.1
      simp only [Option.map_eq_some'] at hlink
      obtain ⟨v, hv, hp⟩ := hlink
      have hih := stack_path hreg (e1 :: rest0)
        (fun e hee => hk e (List.mem_cons_of_mem e0 hee)) hch.2
        (fun e hee => hlast e (by
          rw [getLast?_cons_of_ne_nil e0 (List.cons_ne_nil e1 rest0)]
          exact hee)) e1 rest0 rfl
      rw [pathTo_step hreg hv hp, ← hih]
      simp

theorem isKey_eq_false_of_not_mem {cats : List (String × FlatCat)} {c : String}
    (h : c ∉ cats.map Prod.fst) : isKey cats c = false := by
  cases hk : isKey cats c
  · rfl
  · rw [isKey_eq_isSome] at hk
    cases hv : dictGet? cats c with
    | none => rw [hv] at hk; simp at hk
    | some v => exact absurd (List.mem_map_of_mem Prod.fst (mem_of_dictGet? hv)) h

theorem lineageInv_processRows (colMap : ColMap) (sheet_name : String) :
    ∀ (rows : List Row) (idx : Nat) (st : ClassifierState),
      StateInv st → LineageInv st →
      ((st.categories.map Prod.fst) ++ headerCodes idx rows).Nodup →
      LineageInv (processRows colMap sheet_name idx st rows)
  | [], _, _, _, hlin, _ => hlin
  | r :: rs, idx, st, hst, hlin, hnd => by
      rw [processRows]
      have hstep := stateInv_processRow colMap sheet_name idx st r hst
      by_cases h2 : idx < 2
      · rw [headerCodes, if_pos h2] at hnd
        rw [processRow_skip colMap sheet_name idx st r h2] at hstep ⊢
        exact lineageInv_processRows colMap sheet_name rs (idx + 1) st hst hlin hnd
      · by_cases hna : rowAllNa r
        · rw [headerCodes, if_neg h2, if_pos hna] at hnd
          rw [processRow_allna colMap sheet_name idx st r h2 hna] at hstep ⊢
          exact lineageInv_processRows colMap sheet_name rs (idx + 1) st hst hlin hnd
        · by_cases hfc : clean_text (r.headD none) ≠ ""
          · -- header row, with a code never seen before
            rw [headerCodes, if_neg h2, if_neg hna, if_pos hfc] at hnd
            have hfresh : clean_text (r.headD none) ∉ st.categories.map Prod.fst := by
              rw [List.nodup_append] at hnd
              intro hmem
              exact hnd.2.2 hmem (List.mem_cons_self _ _)
            have hnokey := isKey_eq_false_of_not_mem hfresh
            rw [processRow_header colMap sheet_name idx st r h2 hna hfc] at hstep ⊢
            apply lineageInv_processRows colMap sheet_name rs (idx + 1) _ hstep _ _
            · -- LineageInv after the header step
              set c := clean_text (r.headD none) with hcdef
              set v : FlatCat := ⟨c, catNameOfRow r, (popGE c st.category_stack).length + 1,
                ((popGE c st.category_stack).head?).map (·.1), 0⟩ with hvdef
              have hagree : ∀ j, isKey st.categories j = true →
                  (dictGet? (dictInsert st.categories c v) j).map (·.parent_code) =
                  (dictGet? st.categories j).map (·.parent_code) := by
                intro j hj
                have hjc : j ≠ c := by
                  intro he
                  rw [he, hnokey] at hj
                  cases hj
                rw [dictGet?_dictInsert_ne _ _ _ _ hjc]
              refine ⟨?_, ?_⟩
              · intro m hm
                obtain ⟨hnone, hsome⟩ := hlin.1 m hm
                refine ⟨hnone, ?_⟩
                intro cc hcc
                obtain ⟨hcckey, hccpath⟩ := hsome cc hcc
                refine ⟨?_, ?_⟩
                · rw [isKey_dictInsert]
                  simp [hcckey]
                · rw [hccpath]
                  rw [pathTo_congr hst.1 hagree cc hcckey]
              · intro k w hw
                by_cases hk : k = c
                · rw [hk, dictGet?_dictInsert_self] at hw
                  injection hw with hw
                  rw [← hw]
                  show (0 : Nat) = _
                  symm
                  rw [List.countP_eq_zero]
                  intro m hm hcm
                  simp only [beq_iff_eq] at hcm
                  obtain ⟨hcckey, _⟩ := (hlin.1 m hm).2 k hcm
                  rw [hk, hnokey] at hcckey
                  cases hcckey
                · rw [dictGet?_dictInsert_ne _ _ _ _ hk] at hw
                  exact hlin.2 k w hw
            · -- Nodup threading
              show ((dictInsert st.categories _ _).map Prod.fst ++ headerCodes (idx + 1) rs).Nodup
              rw [keys_dictInsert, hnokey]
              simp only [Bool.false_eq_true, if_false]
              rw [List.append_assoc]
              exact hnd
          · by_cases hnm : itemName colMap r = ""
            · rw [headerCodes, if_neg h2, if_neg hna, if_neg (by simpa using hfc)] at hnd
              rw [processRow_noname colMap sheet_name idx st r h2 hna hfc hnm] at hstep ⊢
              exact lineageInv_processRows colMap sheet_name rs (idx + 1) st hst hlin hnd
            · rw [headerCodes, if_neg h2, if_neg hna, if_neg (by simpa using hfc)] at hnd
              cases hs : st.category_stack with
              | nil =>
                  rw [processRow_item_nil colMap sheet_name idx st r h2 hna hfc hnm hs] at hstep ⊢
                  apply lineageInv_processRows colMap sheet_name rs (idx + 1) _ hstep _ hnd
                  set med := addOptFields colMap r
                    { id := sheet_name ++ "_" ++ toString idx, name := itemName colMap r,
                      sheet := sheet_name } with hmed
                  have hcore := addOptFields_core colMap r
                    { id := sheet_name ++ "_" ++ toString idx, name := itemName colMap r,
                      sheet := sheet_name }
                  have hc1 : med.category_code = none := by rw [hmed]; exact hcore.1
                  have hc2 : med.all_category_codes = none := by rw [hmed]; exact hcore.2.1
                  refine ⟨?_, ?_⟩
                  · intro m hm
                    rcases List.mem_append.mp hm with hm1 | hm2
                    · exact hlin.1 m hm1
                    · simp only [List.mem_singleton] at hm2
                      rw [hm2]
                      refine ⟨fun _ => hc2, ?_⟩
                      intro cc hcc
                      rw [hc1] at hcc
                      cases hcc
                  · intro k w hw
                    rw [List.countP_append]
                    have h0 : List.countP (fun m => m.category_code == some k) [med] = 0 := by
                      simp [List.countP_cons, hc1]
                    rw [h0, Nat.add_zero]
                    exact hlin.2 k w hw
              | cons top srest =>
                  rw [processRow_item_cons colMap sheet_name idx st r top srest h2 hna hfc hnm hs]
                    at hstep ⊢
                  have hnd' : ((dictModify st.categories top.1
                      (fun f => { f with medicine_count := f.medicine_count + 1 })).map Prod.fst ++
                      headerCodes (idx + 1) rs).Nodup := by
                    rw [dictModify_map_fst]
                    exact hnd
                  apply lineageInv_processRows colMap sheet_name rs (idx + 1) _ hstep _ hnd'
                  set med := addOptFields colMap r
                    { id := sheet_name ++ "_" ++ toString idx, name := itemName colMap r,
                      sheet := sheet_name,
                      category_code := some top.1,
                      category_name := some (((dictGet? st.categories top.1).map (·.name)).getD ""),
                      all_category_codes := some ((st.category_stack.map (·.1)).reverse) } with hmed
                  have hcore := addOptFields_core colMap r
                    { id := sheet_name ++ "_" ++ toString idx, name := itemName colMap r,
                      sheet := sheet_name,
                      category_code := some top.1,
                      category_name := some (((dictGet? st.categories top.1).map (·.name)).getD ""),
                      all_category_codes := some ((st.category_stack.map (·.1)).reverse) }
                  have hc1 : med.category_code = some top.1 := by rw [hmed]; exact hcore.1
                  have hc2 : med.all_category_codes =
                      some ((st.category_stack.map (·.1)).reverse) := by
                    rw [hmed]
                    exact hcore.2.1
                  have hagree : ∀ j, isKey st.categories j = true →
                      (dictGet? (dictModify st.categories top.1
                          (fun f => { f with medicine_count := f.medicine_count + 1 })) j).map
                        (·.parent_code) =
                      (dictGet? st.categories j).map (·.parent_code) := by
                    intro j _
                    rw [dictGet?_dictModify]
                    by_cases hj : j = top.1
                    · rw [if_pos hj]
                      cases dictGet? st.categories j <;> simp
                    · rw [if_neg hj]
                  have htopkey : isKey st.categories top.1 = true := by
                    apply (hst.2.1 top _).1
                    rw [hs]
                    exact List.mem_cons_self top srest
                  have htoppath : (st.category_stack.map (·.1)).reverse =
                      pathTo st.categories top.1 :=
                    stack_path hst.1 st.category_stack (fun e he => (hst.2.1 e he).1)
                      hst.2.2.1 hst.2.2.2 top srest hs
                  refine ⟨?_, ?_⟩
                  · intro m hm
                    rcases List.mem_append.mp hm with hm1 | hm2
                    · obtain ⟨hnone, hsome⟩ := hlin.1 m hm1
                      refine ⟨hnone, ?_⟩
                      intro cc hcc
                      obtain ⟨hcckey, hccpath⟩ := hsome cc hcc
                      refine ⟨by rw [isKey_dictModify]; exact hcckey, ?_⟩
                      rw [hccpath, pathTo_congr hst.1 hagree cc hcckey]
                    · simp only [List.mem_singleton] at hm2
                      rw [hm2]
                      constructor
                      · intro hn
                        rw [hc1] at hn
                        cases hn
                      · intro cc hcc
                        rw [hc1] at hcc
                        injection hcc with hcc
                        rw [← hcc]
                        refine ⟨by rw [isKey_dictModify]; exact htopkey, ?_⟩
                        rw [hc2, htoppath, pathTo_congr hst.1 hagree top.1 htopkey]
                  · intro k w hw
                    have hw2 : dictGet? (dictModify st.categories top.1
                        (fun f => { f with medicine_count := f.medicine_count + 1 })) k =
                        some w := hw
                    rw [dictGet?_dictModify] at hw2
                    rw [List.countP_append]
                    by_cases hk : k = top.1
                    · rw [if_pos hk] at hw2
                      cases hv0 : dictGet? st.categories k with
                      | none => rw [hv0] at hw2; cases hw2
                      | some v0 =>
                          rw [hv0] at hw2
                          simp only [Option.map_some', Option.some.injEq] at hw2
                          rw [← hw2]
                          have h1 : List.countP (fun m => m.category_code == some k) [med] = 1 := by
                            simp [List.countP_cons, hc1, hk]
                          rw [h1, hlin.2 k v0 hv0]
                    · rw [if_neg hk] at hw2
                      have htk : top.1 ≠ k := fun h => hk h.symm
                      have h0 : List.countP (fun m => m.category_code == some k) [med] = 0 := by
                        simp [List.countP_cons, hc1, htk]
                      rw [h0, Nat.add_zero]
                      exact hlin.2 k w hw2

theorem lineageInv_initState : LineageInv initState := by
  constructor
  · intro m hm
    simp [initState] at hm
  · intro k v hv
    simp [initState, dictGet?] at hv

theorem lineageInv_extractFlat (df : List Row) (sheet_name : String)
    (h : (headerCodes 0 df).Nodup) : LineageInv (extractFlat df sheet_name) := by
  apply lineageInv_processRows (sheet_col_map sheet_name) sheet_name df 0 initState
    stateInv_initState lineageInv_initState
  simpa [initState] using h

theorem consec_snoc (cats : List (String × FlatCat)) :
    ∀ (l : List String) (b a : String), l.getLast? = some b →
      consecParentOK cats (l ++ [a]) =
        (consecParentOK cats l &&
          ((dictGet? cats a).map (·.parent_code) == some (some b)))
  | [], b, a, hl => by cases hl
  | [x], b, a, hl => by
      simp only [List.getLast?_singleton, Option.some.injEq] at hl
      rw [hl]
      simp [consecParentOK]
  | x :: y :: rest, b, a, hl => by
      rw [List.getLast?_cons_cons] at hl
      have := consec_snoc cats (y :: rest) b a hl
      simp only [List.cons_append, consecParentOK] at this ⊢
      rw [List.append_eq, this, Bool.and_assoc]

theorem consec_pathTo {cats : List (String × FlatCat)} (h : RegistryInv cats) :
    ∀ (n : Nat) (k : String), k.length ≤ n → isKey cats k = true →
      consecParentOK cats (pathTo cats k) = true := by
  intro n
  induction n using Nat.strong_induction_on with
  | _ n ih =>
      intro k hle hkey
      have hkey' := hkey
      rw [isKey_eq_isSome] at hkey'
      cases hv : dictGet? cats k with
      | none => rw [hv] at hkey'; simp at hkey'
      | some v =>
          cases hp : v.parent_code with
          | none => rw [pathTo_of_parent_none hv hp]; rfl
          | some p =>
              have hfacts := (h.2 k v hv).2.2 p hp
              have hplen := hfacts.2.1
              have hpkey := hfacts.2.2
              rw [pathTo_step h hv hp]
              rw [consec_snoc cats (pathTo cats p) p k (pathTo_getLast cats p)]
              rw [ih p.length (by omega) p (le_refl _) hpkey]
              simp [hv, hp]

/-- C2 amended: on every sheet in which no category code appears on two header
rows, every emitted item's non-empty `all_category_codes` has its consecutive
pairs matched by the final flat mapping's parent links and ends at the item's
`category_code`. -/
theorem claim_C2_lineage_consistency (df : List Row) (sheet_name : String)
    (h : (headerCodes 0 df).Nodup) :
    lineageConsistent (extractFlat df sheet_name) = true := by
  have hlin := lineageInv_extractFlat df sheet_name h
  have hreg : RegistryInv (extractFlat df sheet_name).categories :=
    (stateInv_extractFlat df sheet_name).1
  rw [lineageConsistent, List.all_eq_true]
  intro m hm
  obtain ⟨hnone, hsome⟩ := hlin.1 m hm
  cases hac : m.all_category_codes with
  | none => simp
  | some l =>
      simp only
      cases hcc : m.category_code with
      | none => rw [hnone hcc] at hac; cases hac
      | some cc =>
          obtain ⟨hcckey, hccpath⟩ := hsome cc hcc
          rw [hac] at hccpath
          injection hccpath with hccpath
          rw [hccpath]
          rw [consec_pathTo hreg cc.length cc (le_refl _) hcckey]
          rw [pathTo_getLast]
          simp

theorem claim_C2_witness :
    (headerCodes 0 scenarioRows).Nodup ∧
      lineageConsistent (extractFlat scenarioRows "西药部分") = true :=
  ⟨by decide, claim_C2_lineage_consistency scenarioRows "西药部分" (by decide)⟩

/-! ### Amended C1: count conservation under unique header codes -/
theorem buildNode_code (cats : List (String × FlatCat)) (fuel : Nat) (k : String)
    (rk : FlatCat) : (buildNode cats fuel k rk).code = rk.code := by
  cases fuel <;> rfl

theorem specFinalize_code (n : CatNode) : (specFinalize n).code = n.code := by
  cases n
  rfl

theorem specFinalize_count (n : CatNode) :
    (specFinalize n).medicine_count = specCount n := by
  cases n
  rfl

theorem allNodesOf_specFinalize (n : CatNode) :
    allNodesOf (specFinalize n) =
      specFinalize n :: allNodesSubs (specFinalizeSubs n.subcategories) := by
  cases n
  rfl

theorem specFinalizeSubs_map (g : String × FlatCat → CatNode) :
    ∀ (l : List (String × FlatCat)),
      specFinalizeSubs (l.map (fun kv => (kv.1, g kv))) =
        l.map (fun kv => (kv.1, specFinalize (g kv)))
  | [] => rfl
  | kv :: rest => by
      simp only [List.map_cons, specFinalizeSubs]
      rw [specFinalizeSubs_map g rest]

theorem allNodesSubs_all (p : CatNode → Bool) :
    ∀ (l : List (String × CatNode)), (∀ kv ∈ l, (allNodesOf kv.2).all p = true) →
      (allNodesSubs l).all p = true
  | [], _ => rfl
  | (k, c) :: rest, hall => by
      simp only [allNodesSubs, List.all_append]
      rw [hall (k, c) (List.mem_cons_self _ _),
        allNodesSubs_all p rest (fun kv hkv => hall kv (List.mem_cons_of_mem _ hkv))]
      rfl

mutual

theorem specCount_entries : (n : CatNode) → ∀ (k : String),
    specCount n = ((treeEntries [(k, n)]).map (fun kv => kv.2.medicine_count)).sum
  | .mk c nm lv p mc subs, k => by
      simp only [specCount, treeEntries, List.map_cons, List.sum_cons, List.append_nil]
      rw [specCountSubs_entries subs]

theorem specCountSubs_entries : (l : List (String × CatNode)) →
    specCountSubs l = ((treeEntries l).map (fun kv => kv.2.medicine_count)).sum
  | [] => by simp [specCountSubs, treeEntries]
  | (k, c) :: rest => by
      rw [treeEntries_cons]
      simp only [specCountSubs, List.map_append, List.sum_append]
      rw [specCount_entries c k, specCountSubs_entries rest]

end

theorem countP_eq_of_agree (p q : α → Bool) :
    ∀ (l : List α), (∀ x ∈ l, p x = q x) → l.countP p = l.countP q
  | [], _ => rfl
  | x :: rest, h => by
      rw [List.countP_cons, List.countP_cons, h x (List.mem_cons_self x rest),
        countP_eq_of_agree p q rest (fun y hy => h y (List.mem_cons_of_mem x hy))]

theorem recount_filter_path {cats : List (String × FlatCat)} {meds : List Medicine}
    (hnd : (cats.map Prod.fst).Nodup)
    (hc : ∀ kv ∈ cats,
      kv.2.medicine_count = meds.countP (fun m => m.category_code == some kv.1))
    (hl : ∀ m ∈ meds,
      (m.category_code = none → m.all_category_codes = none) ∧
      (∀ cc, m.category_code = some cc → isKey cats cc = true ∧
        m.all_category_codes = some (pathTo cats cc)))
    (j : String) :
    ((cats.filter (fun kv => decide (j ∈ pathTo cats kv.1))).map
      (fun kv => kv.2.medicine_count)).sum =
      meds.countP (fun m => containsCode m j) := by
  rw [sum_filter_eq_sum_ite]
  have hstep : ∀ kv ∈ cats,
      (if decide (j ∈ pathTo cats kv.1) = true then kv.2.medicine_count else 0) =
      (meds.map (fun m =>
        if (decide (j ∈ pathTo cats kv.1) && (m.category_code == some kv.1)) = true
        then 1 else 0)).sum := by
    intro kv hkv
    by_cases hj : j ∈ pathTo cats kv.1
    · simp only [hj, decide_True, if_true, Bool.true_and]
      rw [hc kv hkv, countP_eq_sum_ite]
    · simp [hj]
  rw [sum_map_congr _ _ cats hstep]
  rw [sum_exchange (fun kv m =>
    if (decide (j ∈ pathTo cats kv.1) && (m.category_code == some kv.1)) = true
    then 1 else 0) cats meds]
  rw [countP_eq_sum_ite]
  apply sum_map_congr
  intro m hm
  obtain ⟨hnone, hsome⟩ := hl m hm
  cases hcc : m.category_code with
  | none =>
      have hcont : containsCode m j = false := by
        rw [containsCode, hnone hcc]
        rfl
      have hb : ∀ (x : String), ((none : Option String) == some x) = false := fun x => rfl
      simp [hcont, hb]
  | some cc =>
      obtain ⟨hkey, hacc⟩ := hsome cc hcc
      have hcont : containsCode m j = decide (j ∈ pathTo cats cc) := by
        rw [containsCode, hacc]
        simp [List.elem_iff]
      rw [← countP_eq_sum_ite (fun kv =>
        decide (j ∈ pathTo cats kv.1) && (some cc == some kv.1)) cats]
      by_cases hj : j ∈ pathTo cats cc
      · have hagree : ∀ kv ∈ cats,
            (decide (j ∈ pathTo cats kv.1) && (some cc == some kv.1)) =
              decide (kv.1 = cc) := by
          intro kv _
          by_cases hx : kv.1 = cc
          · rw [hx]
            simp [hj]
          · have hx' : cc ≠ kv.1 := fun e => hx e.symm
            simp [hx, hx']
        rw [countP_eq_of_agree _ _ cats hagree, countP_keys_eq_one cc cats hnd hkey, hcont]
        simp [hj]
      · have h0 : cats.countP (fun kv =>
            decide (j ∈ pathTo cats kv.1) && (some cc == some kv.1)) = 0 := by
          rw [List.countP_eq_zero]
          intro kv _ hcon
          simp only [Bool.and_eq_true, decide_eq_true_eq, beq_iff_eq,
            Option.some.injEq] at hcon
          obtain ⟨h1, h2⟩ := hcon
          rw [← h2] at h1
          exact absurd h1 hj
        rw [h0, hcont]
        simp [hj]

theorem specCount_buildNode {cats : List (String × FlatCat)} {meds : List Medicine}
    (h : RegistryInv cats)
    (hc : ∀ kv ∈ cats,
      kv.2.medicine_count = meds.countP (fun m => m.category_code == some kv.1))
    (hl : ∀ m ∈ meds,
      (m.category_code = none → m.all_category_codes = none) ∧
      (∀ cc, m.category_code = some cc → isKey cats cc = true ∧
        m.all_category_codes = some (pathTo cats cc)))
    (fuel : Nat) (k : String) (rk : FlatCat) (hmem : (k, rk) ∈ cats)
    (hfuel : bnFuel cats k ≤ fuel) :
    specCount (buildNode cats fuel k rk) = meds.countP (fun m => containsCode m k) := by
  rw [specCount_entries (buildNode cats fuel k rk) k]
  rw [entries_buildNode_sum h (fun kv => kv.2.medicine_count) fuel k rk hmem hfuel]
  exact recount_filter_path h.1 hc hl k

theorem allNodes_check {cats : List (String × FlatCat)} {meds : List Medicine}
    (h : RegistryInv cats)
    (hc : ∀ kv ∈ cats,
      kv.2.medicine_count = meds.countP (fun m => m.category_code == some kv.1))
    (hl : ∀ m ∈ meds,
      (m.category_code = none → m.all_category_codes = none) ∧
      (∀ cc, m.category_code = some cc → isKey cats cc = true ∧
        m.all_category_codes = some (pathTo cats cc))) :
    ∀ (fuel : Nat) (k : String) (rk : FlatCat), (k, rk) ∈ cats → bnFuel cats k ≤ fuel →
      (allNodesOf (specFinalize (buildNode cats fuel k rk))).all
        (fun n => n.medicine_count == meds.countP (fun m => containsCode m n.code)) = true
  | 0, k, rk, hmem, hfuel => by
      have hcode : rk.code = k := (h.2 k rk (dictGet?_of_mem h.1 hmem)).1
      rw [allNodesOf_specFinalize]
      have hsubs : (buildNode cats 0 k rk).subcategories = [] := rfl
      rw [hsubs]
      simp only [specFinalizeSubs, allNodesSubs, List.all_cons, List.all_nil, Bool.and_true]
      rw [specFinalize_count, specFinalize_code, buildNode_code, hcode,
        specCount_buildNode h hc hl 0 k rk hmem hfuel]
      simp
  | fuel + 1, k, rk, hmem, hfuel => by
      have hcode : rk.code = k := (h.2 k rk (dictGet?_of_mem h.1 hmem)).1
      rw [allNodesOf_specFinalize]
      have hsubs : (buildNode cats (fuel + 1) k rk).subcategories =
          (childrenOf cats k).map (fun kv => (kv.1, buildNode cats fuel kv.1 kv.2)) := rfl
      rw [hsubs, specFinalizeSubs_map (fun kv => buildNode cats fuel kv.1 kv.2)]
      rw [List.all_cons, Bool.and_eq_true]
      constructor
      · rw [specFinalize_count, specFinalize_code, buildNode_code, hcode,
          specCount_buildNode h hc hl (fuel + 1) k rk hmem hfuel]
        simp
      · apply allNodesSubs_all
        intro kv hkv
        obtain ⟨ckv, hckv, rfl⟩ := List.mem_map.mp hkv
        obtain ⟨hcm, hcp, hkne⟩ := mem_childrenOf.mp hckv
        have hlt := bnFuel_child_lt h (show (ckv.1, ckv.2) ∈ cats from hcm) hcp
        exact allNodes_check h hc hl fuel ckv.1 ckv.2 hcm (by omega)

/-- C1 amended: on every sheet in which no category code appears on two header
rows, every category node of the assembled tree has a `medicine_count` equal to
the number of emitted items whose `all_category_codes` contains its code. -/
theorem claim_C1_count_conservation (df : List Row) (sheet_name : String)
    (hnd : (headerCodes 0 df).Nodup) :
    countConservation (extract_categories_and_medicines df sheet_name) = true := by
  have hreg : RegistryInv (extractFlat df sheet_name).categories :=
    (stateInv_extractFlat df sheet_name).1
  have hlin := lineageInv_extractFlat df sheet_name hnd
  have hc : ∀ kv ∈ (extractFlat df sheet_name).categories,
      kv.2.medicine_count = (extractFlat df sheet_name).medicines.countP
        (fun m => m.category_code == some kv.1) :=
    fun kv hkv => hlin.2 kv.1 kv.2 (dictGet?_of_mem hreg.1 hkv)
  have hres : extract_categories_and_medicines df sheet_name =
      { categories := (build_category_tree (extractFlat df sheet_name).categories).map
          (fun kv => (kv.1, specFinalize kv.2)),
        medicines := (extractFlat df sheet_name).medicines } := by
    simp [extract_categories_and_medicines, update_eq_specFinalize]
  rw [hres]
  simp only [countConservation, allNodesForest]
  apply allNodesSubs_all
  intro kv hkv
  obtain ⟨bkv, hbkv, rfl⟩ := List.mem_map.mp hkv
  rw [build_category_tree] at hbkv
  obtain ⟨rkv, hrkv, rfl⟩ := List.mem_map.mp hbkv
  have hmem : rkv ∈ (extractFlat df sheet_name).categories := (List.mem_filter.mp hrkv).1
  exact allNodes_check hreg hc hlin.1 (extractFlat df sheet_name).categories.length
    rkv.1 rkv.2 hmem (List.countP_le_length _)

theorem claim_C1_witness :
    (headerCodes 0 scenarioRows).Nodup ∧
      countConservation (extract_categories_and_medicines scenarioRows "西药部分") = true :=
  ⟨by decide, claim_C1_count_conservation scenarioRows "西药部分" (by decide)⟩

/-! ### Heap lemmas and the idempotence of the assembly pass (claim C7) -/
theorem getD_append_lt {α : Type} (d : α) :
    ∀ (O X : List α) (a : Nat), a < O.length → (O ++ X).getD a d = O.getD a d
  | [], _, a, h => by simp at h
  | o :: O, X, 0, _ => rfl
  | o :: O, X, a + 1, h => by
      simp only [List.cons_append, List.getD_cons_succ]
      exact getD_append_lt d O X a (by simpa using h)

theorem getD_append_add {α : Type} (d : α) :
    ∀ (O X : List α) (i : Nat), (O ++ X).getD (O.length + i) d = X.getD i d
  | [], X, i => by simp
  | o :: O, X, i => by
      simp only [List.cons_append, List.length_cons]
      have : o :: O ++ X = o :: (O ++ X) := rfl
      rw [show (O.length + 1 + i) = (O.length + i) + 1 by omega, List.getD_cons_succ]
      exact getD_append_add d O X i

theorem set_append_add {α : Type} (v : α) :
    ∀ (O X : List α) (i : Nat), (O ++ X).set (O.length + i) v = O ++ X.set i v
  | [], X, i => by simp
  | o :: O, X, i => by
      simp only [List.cons_append, List.length_cons]
      rw [show (O.length + 1 + i) = (O.length + i) + 1 by omega, List.set_cons_succ]
      rw [set_append_add v O X i]

theorem objsOf_length : ∀ (flat : List (String × FlatCat)) (d : Nat),
    (objsOf flat d).length = flat.length
  | [], _ => rfl
  | kv :: rest, d => by simp [objsOf, objsOf_length rest (d + 1)]

theorem objsOf_getD : ∀ (flat : List (String × FlatCat)) (d i : Nat), i < flat.length →
    (objsOf flat d).getD i dfltObj =
      ⟨(flat.getD i dfltKV).2.code, (flat.getD i dfltKV).2.name,
       (flat.getD i dfltKV).2.level, (flat.getD i dfltKV).2.parent_code,
       (flat.getD i dfltKV).2.medicine_count, d + i⟩
  | [], _, i, h => by simp at h
  | kv :: rest, d, 0, _ => by simp [objsOf]
  | kv :: rest, d, i + 1, h => by
      simp only [objsOf, List.getD_cons_succ]
      rw [objsOf_getD rest (d + 1) i (by simpa using h)]
      simp only [Nat.add_assoc, Nat.add_comm 1 i]

theorem objsOf_set : ∀ (flat : List (String × FlatCat)) (d i : Nat)
    (kv' : String × FlatCat), i < flat.length →
    (objsOf flat d).set i ⟨kv'.2.code, kv'.2.name, kv'.2.level, kv'.2.parent_code,
        kv'.2.medicine_count, d + i⟩ =
      objsOf (flat.set i kv') d
  | [], _, i, _, h => by simp at h
  | kv :: rest, d, 0, kv', _ => by simp [objsOf]
  | kv :: rest, d, i + 1, kv', h => by
      simp only [objsOf, List.set_cons_succ]
      rw [show d + (i + 1) = (d + 1) + i by omega,
        objsOf_set rest (d + 1) i kv' (by simpa using h)]

theorem lookupN_enumKeys (p : String) : ∀ (keys : List String) (b : Nat),
    lookupN (enumKeys keys b) p = (idxOf keys p).map (b + ·)
  | [], _ => rfl
  | k :: rest, b => by
      simp only [enumKeys, lookupN, idxOf]
      by_cases hk : k = p
      · simp [hk]
      · simp only [hk, if_false]
        rw [lookupN_enumKeys p rest (b + 1)]
        cases idxOf rest p with
        | none => rfl
        | some j =>
            simp
            omega

theorem idxOf_lt (p : String) : ∀ (keys : List String) (j : Nat),
    idxOf keys p = some j → j < keys.length
  | [], j, h => by cases h
  | k :: rest, j, h => by
      simp only [idxOf] at h
      by_cases hk : k = p
      · simp [hk] at h
        simp only [List.length_cons]
        omega
      · simp only [hk, if_false] at h
        cases hr : idxOf rest p with
        | none => rw [hr] at h; cases h
        | some j' =>
            rw [hr] at h
            simp only [Option.map, Option.some.injEq] at h
            have := idxOf_lt p rest j' hr
            simp only [List.length_cons]
            omega

theorem shiftVals_insert (b : Nat) (k : String) (v : Nat) :
    ∀ (l : List (String × Nat)),
      dictInsertN (shiftVals b l) k (b + v) = shiftVals b (dictInsertN l k v)
  | [] => rfl
  | cv :: rest => by
      by_cases hk : cv.1 = k
      · simp [shiftVals, dictInsertN, hk]
      · have ih := shiftVals_insert b k v rest
        simp only [shiftVals, List.map_cons, dictInsertN, hk, if_false]
        simp only [shiftVals] at ih
        rw [ih]

theorem shiftVals_getD_map (b : Nat) : ∀ (R : List (List (String × Nat))) (i : Nat),
    (R.map (shiftVals b)).getD i [] = shiftVals b (R.getD i [])
  | [], i => by simp [shiftVals]
  | l :: rest, 0 => rfl
  | l :: rest, i + 1 => by
      simp only [List.map_cons, List.getD_cons_succ]
      exact shiftVals_getD_map b rest i

theorem shiftVals_set_map (b : Nat) :
    ∀ (R : List (List (String × Nat))) (j : Nat) (l : List (String × Nat)),
      (R.map (shiftVals b)).set j (shiftVals b l) = (R.set j l).map (shiftVals b)
  | [], _, _ => rfl
  | l0 :: rest, 0, l => rfl
  | l0 :: rest, j + 1, l => by
      simp only [List.map_cons, List.set_cons_succ]
      rw [shiftVals_set_map b rest j l]

theorem shiftVals_isEmpty (b : Nat) (l : List (String × Nat)) :
    (shiftVals b l).isEmpty = l.isEmpty := by
  cases l <;> rfl

theorem copyPhase_eq : ∀ (cats : List (String × Nat)) (h : PyHeap),
    (∀ ca ∈ cats, ca.2 < h.objs.length) →
    copyPhase cats h =
      (enumKeys (cats.map Prod.fst) h.objs.length,
       ⟨h.objs ++ cats.map (fun ca => getObj h ca.2), h.dicts⟩)
  | [], h, _ => by cases h; simp [copyPhase, enumKeys]
  | ca :: rest, h, hW => by
      have hW' : ∀ ca' ∈ rest, ca'.2 < (h.objs ++ [getObj h ca.2]).length := by
        intro ca' hm
        have := hW ca' (List.mem_cons_of_mem ca hm)
        simp only [List.length_append, List.length_cons, List.length_nil]
        omega
      have ih := copyPhase_eq rest ⟨h.objs ++ [getObj h ca.2], h.dicts⟩ hW'
      simp only [copyPhase, ih]
      have hstable : rest.map (fun ca' => getObj ⟨h.objs ++ [getObj h ca.2], h.dicts⟩ ca'.2) =
          rest.map (fun ca' => getObj h ca'.2) := by
        apply List.map_congr_left
        intro ca' hm
        exact getD_append_lt dfltObj h.objs [getObj h ca.2] ca'.2
          (hW ca' (List.mem_cons_of_mem ca hm))
      simp only [List.length_append, List.length_cons, List.length_nil]
      rw [hstable]
      simp [enumKeys, List.append_assoc]

theorem resetPhase_eq : ∀ (keys : List String) (C O : List PyCatObj)
    (D : List (List (String × Nat))), C.length = keys.length →
    resetPhase (enumKeys keys O.length) ⟨O ++ C, D⟩ =
      ⟨O ++ resetSubs C D.length, D ++ List.replicate keys.length []⟩
  | [], [], O, D, _ => by simp [enumKeys, resetPhase, resetSubs]
  | [], c :: _, O, D, hlen => by simp at hlen
  | k :: _, [], O, D, hlen => by simp at hlen
  | k :: kr, c0 :: Cr, O, D, hlen => by
      simp only [enumKeys, resetPhase]
      have hget : getObj ⟨O ++ c0 :: Cr, D⟩ O.length = c0 := by
        rw [getObj]
        have := getD_append_add dfltObj O (c0 :: Cr) 0
        simpa using this
      rw [hget]
      have hset : (O ++ c0 :: Cr).set O.length { c0 with subs := D.length } =
          (O ++ [{ c0 with subs := D.length }]) ++ Cr := by
        have := set_append_add { c0 with subs := D.length } O (c0 :: Cr) 0
        simpa [List.append_assoc] using this
      rw [hset]
      have hlen' : Cr.length = kr.length := by simpa using hlen
      have hOlen : (O ++ [{ c0 with subs := D.length }]).length = O.length + 1 := by simp
      have ih := resetPhase_eq kr Cr (O ++ [{ c0 with subs := D.length }]) (D ++ [[]]) hlen'
      rw [hOlen] at ih
      rw [ih]
      simp [resetSubs, List.append_assoc, List.replicate_succ]

theorem resetSubs_copies (h : PyHeap) : ∀ (cats : List (String × Nat)) (d : Nat),
    resetSubs (cats.map (fun ca => getObj h ca.2)) d = objsOf (contents cats h) d
  | [], _ => rfl
  | ca :: rest, d => by
      simp only [List.map_cons, resetSubs, contents, objsOf]
      congr 1
      exact resetSubs_copies h rest (d + 1)

theorem mountPhase_sim (O : List PyCatObj) (D : List (List (String × Nat)))
    (flat : List (String × FlatCat)) :
    ∀ (flatSuf flatPre : List (String × FlatCat)) (treeRel : List (String × Nat))
      (R : List (List (String × Nat))), flat = flatPre ++ flatSuf →
      mountPhase (enumKeys (flat.map Prod.fst) O.length)
          (enumKeys (flatSuf.map Prod.fst) (O.length + flatPre.length))
          (shiftVals O.length treeRel)
          ⟨O ++ objsOf flat D.length, D ++ R.map (shiftVals O.length)⟩ =
        (shiftVals O.length
            (mountRel (flat.map Prod.fst) flatPre.length flatSuf treeRel R).1,
         ⟨O ++ objsOf flat D.length,
          D ++ (mountRel (flat.map Prod.fst) flatPre.length flatSuf treeRel R).2.map
            (shiftVals O.length)⟩)
  | [], flatPre, treeRel, R, hsplit => by
      simp [enumKeys, mountPhase, mountRel]
  | kv :: rest, flatPre, treeRel, R, hsplit => by
      have hi : flatPre.length < flat.length := by
        rw [hsplit]
        simp only [List.length_append, List.length_cons]
        omega
      have hflatget : flat.getD flatPre.length dfltKV = kv := by
        rw [hsplit]
        have := getD_append_add dfltKV flatPre (kv :: rest) 0
        simpa using this
      have hobj : getObj ⟨O ++ objsOf flat D.length, D ++ R.map (shiftVals O.length)⟩
          (O.length + flatPre.length) =
          ⟨kv.2.code, kv.2.name, kv.2.level, kv.2.parent_code, kv.2.medicine_count,
            D.length + flatPre.length⟩ := by
        simp only [getObj]
        show (O ++ objsOf flat D.length).getD (O.length + flatPre.length) dfltObj = _
        rw [getD_append_add, objsOf_getD flat D.length flatPre.length hi, hflatget]
      have hsplit' : flat = (flatPre ++ [kv]) ++ rest := by
        rw [hsplit, List.append_assoc]
        rfl
      have hlen' : (flatPre ++ [kv]).length = flatPre.length + 1 := by simp
      simp only [List.map_cons, enumKeys, mountPhase, mountRel, hobj]
      cases hp : kv.2.parent_code with
      | none =>
          simp only
          rw [shiftVals_insert O.length kv.1 flatPre.length treeRel]
          have ih := mountPhase_sim O D flat rest (flatPre ++ [kv])
            (dictInsertN treeRel kv.1 flatPre.length) R hsplit'
          rw [hlen'] at ih
          rw [show O.length + flatPre.length + 1 = O.length + (flatPre.length + 1) by omega]
          exact ih
      | some p =>
          by_cases hpe : p = ""
          · simp only [hpe, if_true]
            rw [shiftVals_insert O.length kv.1 flatPre.length treeRel]
            have ih := mountPhase_sim O D flat rest (flatPre ++ [kv])
              (dictInsertN treeRel kv.1 flatPre.length) R hsplit'
            rw [hlen'] at ih
            rw [show O.length + flatPre.length + 1 = O.length + (flatPre.length + 1) by omega]
            exact ih
          · simp only [hpe, if_false]
            rw [lookupN_enumKeys p (flat.map Prod.fst) O.length]
            cases hij : idxOf (flat.map Prod.fst) p with
            | none =>
                simp only [Option.map_none']
                rw [shiftVals_insert O.length kv.1 flatPre.length treeRel]
                have ih := mountPhase_sim O D flat rest (flatPre ++ [kv])
                  (dictInsertN treeRel kv.1 flatPre.length) R hsplit'
                rw [hlen'] at ih
                rw [show O.length + flatPre.length + 1 =
                  O.length + (flatPre.length + 1) by omega]
                exact ih
            | some j =>
                simp only [Option.map_some']
                have hj : j < flat.length := by
                  have := idxOf_lt p (flat.map Prod.fst) j hij
                  simpa using this
                have hobjj : getObj ⟨O ++ objsOf flat D.length,
                    D ++ R.map (shiftVals O.length)⟩ (O.length + j) =
                    ⟨(flat.getD j dfltKV).2.code, (flat.getD j dfltKV).2.name,
                     (flat.getD j dfltKV).2.level, (flat.getD j dfltKV).2.parent_code,
                     (flat.getD j dfltKV).2.medicine_count, D.length + j⟩ := by
                  simp only [getObj]
                  show (O ++ objsOf flat D.length).getD (O.length + j) dfltObj = _
                  rw [getD_append_add, objsOf_getD flat D.length j hj]
                rw [hobjj]
                simp only [getDict]
                show mountPhase _ _ _
                    ⟨O ++ objsOf flat D.length,
                     (D ++ R.map (shiftVals O.length)).set (D.length + j)
                       (dictInsertN ((D ++ R.map (shiftVals O.length)).getD
                         (D.length + j) []) kv.1 (O.length + flatPre.length))⟩ = _
                rw [getD_append_add, shiftVals_getD_map O.length R j,
                  shiftVals_insert O.length kv.1 flatPre.length (R.getD j []),
                  set_append_add, shiftVals_set_map O.length R j]
                have ih := mountPhase_sim O D flat rest (flatPre ++ [kv]) treeRel
                  (R.set j (dictInsertN (R.getD j []) kv.1 flatPre.length)) hsplit'
                rw [hlen'] at ih
                rw [show O.length + flatPre.length + 1 =
                  O.length + (flatPre.length + 1) by omega]
                exact ih

theorem getD_mem {α : Type} (d : α) : ∀ (l : List α) (i : Nat), i < l.length →
    l.getD i d ∈ l
  | [], i, h => by simp at h
  | a :: rest, 0, _ => List.mem_cons_self a rest
  | a :: rest, i + 1, h =>
      List.mem_cons_of_mem a (getD_mem d rest i (by simpa using h))

theorem getD_le_default {α : Type} (d : α) : ∀ (l : List α) (i : Nat), l.length ≤ i →
    l.getD i d = d
  | [], i, _ => by cases i <;> rfl
  | a :: rest, 0, h => by simp at h
  | a :: rest, i + 1, h => by
      simp only [List.getD_cons_succ]
      exact getD_le_default d rest i (by simpa using h)

theorem shiftVals_snd (b : Nat) (l : List (String × Nat)) :
    (shiftVals b l).map (·.2) = (l.map (·.2)).map (b + ·) := by
  simp [shiftVals, List.map_map]

theorem countRelMany_len (R : List (List (String × Nat))) :
    ∀ (fuel : Nat) (flat : List (String × FlatCat)) (todo : List Nat),
      (countRelMany R fuel flat todo).1.length = flat.length
  | 0, flat, _ => by simp [countRelMany]
  | _ + 1, flat, [] => by simp [countRelMany]
  | fuel + 1, flat, i :: rest => by
      by_cases he : (R.getD i []).isEmpty
      · simp only [countRelMany, he, if_true]
        exact countRelMany_len R (fuel + 1) flat rest
      · simp only [countRelMany, he, Bool.false_eq_true, if_false]
        rw [countRelMany_len R (fuel + 1) _ rest, List.length_set,
          countRelMany_len R fuel flat (List.map (·.2) (R.getD i []))]

theorem heapCountMany_sim (O : List PyCatObj) (D R : List (List (String × Nat)))
    (n : Nat) (hR : ∀ l ∈ R, ∀ cv ∈ l, cv.2 < n) :
    ∀ (fuel : Nat) (flat : List (String × FlatCat)) (todo : List Nat),
      flat.length = n → (∀ i ∈ todo, i < n) →
      heapCountMany fuel ⟨O ++ objsOf flat D.length, D ++ R.map (shiftVals O.length)⟩
          (todo.map (O.length + ·)) =
        (⟨O ++ objsOf (countRelMany R fuel flat todo).1 D.length,
          D ++ R.map (shiftVals O.length)⟩,
         (countRelMany R fuel flat todo).2)
  | 0, flat, todo, _, _ => by simp [heapCountMany, countRelMany]
  | _ + 1, flat, [], _, _ => by simp [heapCountMany, countRelMany]
  | fuel + 1, flat, i :: rest, hn, hto => by
      have hi : i < flat.length := by rw [hn]; exact hto i (List.mem_cons_self i rest)
      have hobj : getObj ⟨O ++ objsOf flat D.length, D ++ R.map (shiftVals O.length)⟩
          (O.length + i) =
          ⟨(flat.getD i dfltKV).2.code, (flat.getD i dfltKV).2.name,
           (flat.getD i dfltKV).2.level, (flat.getD i dfltKV).2.parent_code,
           (flat.getD i dfltKV).2.medicine_count, D.length + i⟩ := by
        simp only [getObj]
        show (O ++ objsOf flat D.length).getD (O.length + i) dfltObj = _
        rw [getD_append_add, objsOf_getD flat D.length i hi]
      have hdict : getDict ⟨O ++ objsOf flat D.length, D ++ R.map (shiftVals O.length)⟩
          (D.length + i) = shiftVals O.length (R.getD i []) := by
        simp only [getDict]
        show (D ++ R.map (shiftVals O.length)).getD (D.length + i) [] = _
        rw [getD_append_add, shiftVals_getD_map]
      simp only [List.map_cons, heapCountMany, countRelMany, hobj, hdict,
        shiftVals_isEmpty]
      by_cases he : (R.getD i []).isEmpty
      · simp only [he, if_true]
        rw [heapCountMany_sim O D R n hR (fuel + 1) flat rest hn
          (fun x hx => hto x (List.mem_cons_of_mem i hx))]
      · simp only [he, Bool.false_eq_true, if_false]
        have hiR : i < R.length := by
          by_contra hc
          rw [getD_le_default [] R i (by omega)] at he
          exact he rfl
        have hchild : ∀ x ∈ (R.getD i []).map (·.2), x < n := by
          intro x hx
          obtain ⟨cv, hcv, hxe⟩ := List.mem_map.mp hx
          exact hxe ▸ hR (R.getD i []) (getD_mem [] R i hiR) cv hcv
        rw [shiftVals_snd]
        rw [heapCountMany_sim O D R n hR fuel flat ((R.getD i []).map (·.2)) hn hchild]
        obtain ⟨FL, hFL⟩ : ∃ FL, countRelMany R fuel flat ((R.getD i []).map (·.2)) = FL :=
          ⟨_, rfl⟩
        rw [hFL]
        have hlen1 : FL.1.length = n := by
          rw [← hFL, countRelMany_len]
          exact hn
        have hobj2 : getObj ⟨O ++ objsOf FL.1 D.length, D ++ R.map (shiftVals O.length)⟩
            (O.length + i) =
            ⟨(FL.1.getD i dfltKV).2.code, (FL.1.getD i dfltKV).2.name,
             (FL.1.getD i dfltKV).2.level, (FL.1.getD i dfltKV).2.parent_code,
             (FL.1.getD i dfltKV).2.medicine_count, D.length + i⟩ := by
          simp only [getObj]
          show (O ++ objsOf FL.1 D.length).getD (O.length + i) dfltObj = _
          rw [getD_append_add, objsOf_getD FL.1 D.length i (by omega)]
        rw [hobj2]
        simp only [setObj]
        have hset : (O ++ objsOf FL.1 D.length).set (O.length + i)
            ⟨(FL.1.getD i dfltKV).2.code, (FL.1.getD i dfltKV).2.name,
             (FL.1.getD i dfltKV).2.level, (FL.1.getD i dfltKV).2.parent_code,
             (flat.getD i dfltKV).2.medicine_count + FL.2, D.length + i⟩ =
            O ++ objsOf (FL.1.set i ((FL.1.getD i dfltKV).1,
              { (FL.1.getD i dfltKV).2 with medicine_count :=
                  (flat.getD i dfltKV).2.medicine_count + FL.2 })) D.length := by
          rw [set_append_add]
          congr 1
          have := objsOf_set FL.1 D.length i ((FL.1.getD i dfltKV).1,
            { (FL.1.getD i dfltKV).2 with medicine_count :=
                (flat.getD i dfltKV).2.medicine_count + FL.2 }) (by omega)
          simpa using this
        rw [hset]
        have hlen2 : (FL.1.set i ((FL.1.getD i dfltKV).1,
            { (FL.1.getD i dfltKV).2 with medicine_count :=
                (flat.getD i dfltKV).2.medicine_count + FL.2 })).length = n := by
          rw [List.length_set]
          exact hlen1
        rw [heapCountMany_sim O D R n hR (fuel + 1) _ rest hlen2
          (fun x hx => hto x (List.mem_cons_of_mem i hx))]

theorem readMany_sim (O : List PyCatObj) (D R : List (List (String × Nat)))
    (n : Nat) (hR : ∀ l ∈ R, ∀ cv ∈ l, cv.2 < n) (flat : List (String × FlatCat))
    (hn : flat.length = n) :
    ∀ (fuel : Nat) (todo : List (String × Nat)), (∀ cv ∈ todo, cv.2 < n) →
      readMany fuel ⟨O ++ objsOf flat D.length, D ++ R.map (shiftVals O.length)⟩
          (shiftVals O.length todo) =
        readRelMany flat R fuel todo
  | 0, todo, _ => by simp [readMany, readRelMany]
  | fuel + 1, [], _ => by simp [readMany, readRelMany, shiftVals]
  | fuel + 1, cv :: rest, hto => by
      have hi : cv.2 < flat.length := by
        rw [hn]
        exact hto cv (List.mem_cons_self cv rest)
      have hobj : getObj ⟨O ++ objsOf flat D.length, D ++ R.map (shiftVals O.length)⟩
          (O.length + cv.2) =
          ⟨(flat.getD cv.2 dfltKV).2.code, (flat.getD cv.2 dfltKV).2.name,
           (flat.getD cv.2 dfltKV).2.level, (flat.getD cv.2 dfltKV).2.parent_code,
           (flat.getD cv.2 dfltKV).2.medicine_count, D.length + cv.2⟩ := by
        simp only [getObj]
        show (O ++ objsOf flat D.length).getD (O.length + cv.2) dfltObj = _
        rw [getD_append_add, objsOf_getD flat D.length cv.2 hi]
      have hdict : getDict ⟨O ++ objsOf flat D.length, D ++ R.map (shiftVals O.length)⟩
          (D.length + cv.2) = shiftVals O.length (R.getD cv.2 []) := by
        simp only [getDict]
        show (D ++ R.map (shiftVals O.length)).getD (D.length + cv.2) [] = _
        rw [getD_append_add, shiftVals_getD_map]
      have hchild : ∀ cv' ∈ R.getD cv.2 [], cv'.2 < n := by
        by_cases hcr : cv.2 < R.length
        · exact fun cv' hcv' => hR _ (getD_mem [] R cv.2 hcr) cv' hcv'
        · intro cv' hcv'
          rw [getD_le_default [] R cv.2 (by omega)] at hcv'
          simp at hcv'
      rw [show shiftVals O.length (cv :: rest) =
        (cv.1, O.length + cv.2) :: shiftVals O.length rest from rfl]
      simp only [readMany, readRelMany, hobj, hdict]
      rw [readMany_sim O D R n hR flat hn fuel (R.getD cv.2 []) hchild,
        readMany_sim O D R n hR flat hn (fuel + 1) rest
          (fun x hx => hto x (List.mem_cons_of_mem cv hx))]

theorem mem_dictInsertN (k : String) (v : Nat) :
    ∀ (l : List (String × Nat)) (cv : String × Nat),
      cv ∈ dictInsertN l k v → cv ∈ l ∨ cv = (k, v)
  | [], cv, hm => by simpa [dictInsertN] using hm
  | kv :: rest, cv, hm => by
      simp only [dictInsertN] at hm
      by_cases hk : kv.1 = k
      · simp only [hk, if_true] at hm
        rcases List.mem_cons.mp hm with he | hm'
        · exact Or.inr he
        · exact Or.inl (List.mem_cons_of_mem kv hm')
      · simp only [hk, if_false] at hm
        rcases List.mem_cons.mp hm with he | hm'
        · exact Or.inl (he ▸ List.mem_cons_self kv rest)
        · rcases mem_dictInsertN k v rest cv hm' with h1 | h2
          · exact Or.inl (List.mem_cons_of_mem kv h1)
          · exact Or.inr h2

theorem mem_set_or {α : Type} : ∀ (R : List α) (j : Nat) (x l : α),
    l ∈ R.set j x → l ∈ R ∨ l = x
  | [], j, x, l, hm => by simp at hm
  | a :: rest, 0, x, l, hm => by
      rcases List.mem_cons.mp hm with he | hm'
      · exact Or.inr he
      · exact Or.inl (List.mem_cons_of_mem a hm')
  | a :: rest, j + 1, x, l, hm => by
      rcases List.mem_cons.mp hm with he | hm'
      · exact Or.inl (he ▸ List.mem_cons_self a rest)
      · rcases mem_set_or rest j x l hm' with h1 | h2
        · exact Or.inl (List.mem_cons_of_mem a h1)
        · exact Or.inr h2

theorem mountRel_range (keys : List String) (n : Nat) :
    ∀ (flatSuf : List (String × FlatCat)) (i : Nat) (tree : List (String × Nat))
      (R : List (List (String × Nat))), i + flatSuf.length ≤ n →
      (∀ cv ∈ tree, cv.2 < n) → (∀ l ∈ R, ∀ cv ∈ l, cv.2 < n) →
      (∀ cv ∈ (mountRel keys i flatSuf tree R).1, cv.2 < n) ∧
      (∀ l ∈ (mountRel keys i flatSuf tree R).2, ∀ cv ∈ l, cv.2 < n)
  | [], i, tree, R, _, htree, hR => ⟨htree, hR⟩
  | kv :: rest, i, tree, R, hle, htree, hR => by
      have hin : i < n := by
        simp only [List.length_cons] at hle
        omega
      have hle' : (i + 1) + rest.length ≤ n := by
        simp only [List.length_cons] at hle
        omega
      have htree' : ∀ cv ∈ dictInsertN tree kv.1 i, cv.2 < n := by
        intro cv hcv
        rcases mem_dictInsertN kv.1 i tree cv hcv with h1 | h2
        · exact htree cv h1
        · rw [h2]
          exact hin
      simp only [mountRel]
      cases kv.2.parent_code with
      | none => exact mountRel_range keys n rest (i + 1) _ R hle' htree' hR
      | some p =>
          by_cases hpe : p = ""
          · simp only [hpe, if_true]
            exact mountRel_range keys n rest (i + 1) _ R hle' htree' hR
          · simp only [hpe, if_false]
            cases idxOf keys p with
            | none => exact mountRel_range keys n rest (i + 1) _ R hle' htree' hR
            | some j =>
                apply mountRel_range keys n rest (i + 1) tree _ hle' htree
                intro l hl cv hcv
                rcases mem_set_or R j _ l hl with h1 | h2
                · exact hR l h1 cv hcv
                · rw [h2] at hcv
                  rcases mem_dictInsertN kv.1 i _ cv hcv with h3 | h4
                  · by_cases hjR : j < R.length
                    · exact hR _ (getD_mem [] R j hjR) cv h3
                    · rw [getD_le_default [] R j (by omega)] at h3
                      simp at h3
                  · rw [h4]
                    exact hin

theorem contents_fst (cats : List (String × Nat)) (h : PyHeap) :
    (contents cats h).map Prod.fst = cats.map Prod.fst := by
  simp [contents, List.map_map]

theorem contents_length (cats : List (String × Nat)) (h : PyHeap) :
    (contents cats h).length = cats.length := by
  simp [contents]

theorem contents_stable (cats : List (String × Nat)) (h : PyHeap)
    (X : List PyCatObj) (Dt : List (List (String × Nat)))
    (hW : ∀ ca ∈ cats, ca.2 < h.objs.length) :
    contents cats ⟨h.objs ++ X, Dt⟩ = contents cats h := by
  simp only [contents]
  apply List.map_congr_left
  intro ca hca
  have hg : getObj ⟨h.objs ++ X, Dt⟩ ca.2 = getObj h ca.2 := by
    simp only [getObj]
    exact getD_append_lt dfltObj h.objs X ca.2 (hW ca hca)
  rw [hg]

theorem assembleHeap_canonical (cats : List (String × Nat)) (h : PyHeap)
    (hW : ∀ ca ∈ cats, ca.2 < h.objs.length) :
    assembleHeap cats h =
      (shiftVals h.objs.length
         (mountRel (cats.map Prod.fst) 0 (contents cats h) []
           (List.replicate cats.length [])).1,
       ⟨h.objs ++ objsOf (countRelMany
            (mountRel (cats.map Prod.fst) 0 (contents cats h) []
              (List.replicate cats.length [])).2
            (cats.length + 1) (contents cats h)
            ((mountRel (cats.map Prod.fst) 0 (contents cats h) []
              (List.replicate cats.length [])).1.map (·.2))).1 h.dicts.length,
        h.dicts ++ (mountRel (cats.map Prod.fst) 0 (contents cats h) []
            (List.replicate cats.length [])).2.map (shiftVals h.objs.length)⟩) := by
  have hcopy := copyPhase_eq cats h hW
  have hlenc : (cats.map (fun ca => getObj h ca.2)).length = (cats.map Prod.fst).length := by
    simp
  have hreset := resetPhase_eq (cats.map Prod.fst) (cats.map (fun ca => getObj h ca.2))
    h.objs h.dicts hlenc
  rw [resetSubs_copies h cats h.dicts.length] at hreset
  have hrepl : (List.replicate cats.length ([] : List (String × Nat))).map
      (shiftVals h.objs.length) = List.replicate cats.length [] := by
    simp [shiftVals]
  have hmount := mountPhase_sim h.objs h.dicts (contents cats h) (contents cats h) [] []
    (List.replicate cats.length []) (by simp)
  rw [contents_fst, hrepl, List.length_nil, Nat.add_zero,
    show shiftVals h.objs.length [] = [] from rfl] at hmount
  have hkeyslen : (cats.map Prod.fst).length = cats.length := by simp
  rw [hkeyslen] at hreset
  have hrange := mountRel_range (cats.map Prod.fst) cats.length (contents cats h) 0 []
    (List.replicate cats.length [])
    (by rw [contents_length]; omega)
    (by intro cv hcv; simp at hcv)
    (by intro l hl cv hcv; rw [List.eq_of_mem_replicate hl] at hcv; simp at hcv)
  have hcount := heapCountMany_sim h.objs h.dicts
    (mountRel (cats.map Prod.fst) 0 (contents cats h) []
      (List.replicate cats.length [])).2 cats.length hrange.2
    (cats.length + 1) (contents cats h)
    ((mountRel (cats.map Prod.fst) 0 (contents cats h) []
      (List.replicate cats.length [])).1.map (·.2))
    (contents_length cats h)
    (by
      intro x hx
      obtain ⟨cv, hcv, hxe⟩ := List.mem_map.mp hx
      exact hxe ▸ hrange.1 cv hcv)
  simp only [assembleHeap, build_category_tree_heap, hcopy, hreset, hmount]
  rw [shiftVals_snd, hcount]

/-- C7: one assembly run (copy every record, reset the copies' subcategory
dicts, mount, recount) leaves every pre-existing object and dict of the store
untouched — in particular the input flat mapping — and rerunning the assembly
on the same mapping reads back as exactly the same tree as the first run. -/
theorem claim_C7_idempotence (cats : List (String × Nat)) (h : PyHeap)
    (hW : ∀ ca ∈ cats, ca.2 < h.objs.length) :
    (∀ a, a < h.objs.length →
      (assembleHeap cats h).2.objs.getD a dfltObj = h.objs.getD a dfltObj) ∧
    (∀ d, d < h.dicts.length →
      (assembleHeap cats h).2.dicts.getD d [] = h.dicts.getD d []) ∧
    readForest (assembleHeap cats (assembleHeap cats h).2).2 (cats.length + 1)
        (assembleHeap cats (assembleHeap cats h).2).1 =
      readForest (assembleHeap cats h).2 (cats.length + 1) (assembleHeap cats h).1 := by
  have hca := assembleHeap_canonical cats h hW
  have hrange := mountRel_range (cats.map Prod.fst) cats.length (contents cats h) 0 []
    (List.replicate cats.length [])
    (by rw [contents_length]; omega)
    (by intro cv hcv; simp at hcv)
    (by intro l hl cv hcv; rw [List.eq_of_mem_replicate hl] at hcv; simp at hcv)
  obtain ⟨M, hM⟩ : ∃ M, mountRel (cats.map Prod.fst) 0 (contents cats h) []
      (List.replicate cats.length []) = M := ⟨_, rfl⟩
  rw [hM] at hca hrange
  obtain ⟨CC, hCC⟩ : ∃ CC, countRelMany M.2 (cats.length + 1) (contents cats h)
      (M.1.map (·.2)) = CC := ⟨_, rfl⟩
  rw [hCC] at hca
  have hn : CC.1.length = cats.length := by
    rw [← hCC, countRelMany_len, contents_length]
  refine ⟨?_, ?_, ?_⟩
  · intro a ha
    rw [hca]
    exact getD_append_lt dfltObj h.objs _ a ha
  · intro d hd
    rw [hca]
    exact getD_append_lt [] h.dicts _ d hd
  · have h1eq : (assembleHeap cats h).2 =
        ⟨h.objs ++ objsOf CC.1 h.dicts.length,
         h.dicts ++ M.2.map (shiftVals h.objs.length)⟩ := by rw [hca]
    have hW1 : ∀ ca ∈ cats, ca.2 < (assembleHeap cats h).2.objs.length := by
      intro ca hc
      rw [h1eq]
      simp only [List.length_append]
      have := hW ca hc
      omega
    have hca2 := assembleHeap_canonical cats (assembleHeap cats h).2 hW1
    have hcont2 : contents cats (assembleHeap cats h).2 = contents cats h := by
      rw [h1eq]
      exact contents_stable cats h _ _ hW
    rw [hcont2, hM, hCC] at hca2
    rw [hca2, h1eq,
      show (assembleHeap cats h).1 = shiftVals h.objs.length M.1 from by rw [hca]]
    simp only [readForest]
    rw [readMany_sim (h.objs ++ objsOf CC.1 h.dicts.length)
        (h.dicts ++ M.2.map (shiftVals h.objs.length)) M.2 cats.length hrange.2
        CC.1 hn (cats.length + 1) M.1 hrange.1,
      readMany_sim h.objs h.dicts M.2 cats.length hrange.2
        CC.1 hn (cats.length + 1) M.1 hrange.1]

theorem claim_C7_witness :
    (∀ ca ∈ heapCats, ca.2 < heapInput.objs.length) ∧
    ((∀ a, a < heapInput.objs.length →
        (assembleHeap heapCats heapInput).2.objs.getD a dfltObj =
          heapInput.objs.getD a dfltObj) ∧
     (∀ d, d < heapInput.dicts.length →
        (assembleHeap heapCats heapInput).2.dicts.getD d [] =
          heapInput.dicts.getD d []) ∧
     readForest (assembleHeap heapCats (assembleHeap heapCats heapInput).2).2
         (heapCats.length + 1)
         (assembleHeap heapCats (assembleHeap heapCats heapInput).2).1 =
       readForest (assembleHeap heapCats heapInput).2 (heapCats.length + 1)
         (assembleHeap heapCats heapInput).1) :=
  ⟨by decide, claim_C7_idempotence heapCats heapInput (by decide)⟩
